import Mathlib

/-!
# Terraform provider registry API generator

A shallow embedding of `versions/binary_metadata.go`, `api_generator.go` and the
tail of `main.go`, together with the library routines they rely on
(`regexp.FindStringSubmatch`, `path.Base`, `path.Dir`, `path.Join`,
`strings.Fields`, `bufio.Scanner`, `os.MkdirAll`, `os.Create`).

The output tree tells files from directories, so that creating a directory or a
file can fail as it does on disk: a write that fails leaves the tree as it was.

Go strings are modelled as lists of characters.  Every delimiter the program
looks at (`/`, `_`, `.`, digits, newline) is ASCII, so nothing depends on how a
character is encoded, except the byte length of a line seen by `bufio.Scanner`,
which is counted with `Char.utf8Size`.
-/

namespace TfRegistry

/-- Go `string`. -/
abbrev Str := List Char

/-! ## regexp -/

/-- The fragment of RE2 syntax used by the patterns of `binary_metadata.go`:
literals, greedy repetition of a character class, concatenation and capture
groups.  A group carries its index (the position of its opening parenthesis)
and its name (empty for an unnamed group). -/
inductive Regex where
  | lit (s : Str)
  | star (cls : Char → Bool)
  | plus (cls : Char → Bool)
  | cat (a b : Regex)
  | group (idx : Nat) (name : Str) (r : Regex)

/-- Captured texts, by group index. -/
abbrev Caps := List (Nat × Str)

/-- Text of group `i`; a group that took no part in the match is the empty string. -/
def Caps.get (c : Caps) (i : Nat) : Str :=
  match c.lookup i with
  | some s => s
  | none => []

/-- Strip a literal from the front of the input. -/
def stripLit : Str → Str → Option Str
  | [], inp => some inp
  | _ :: _, [] => none
  | a :: s, b :: inp => if a = b then stripLit s inp else none

/-- Greedy `[cls]*` followed by the continuation `k`: the longest run is tried
first, shorter ones on backtracking. -/
def starRun {α : Type} (cls : Char → Bool) : Str → (Str → Option α) → Option α
  | [], k => k []
  | c :: cs, k =>
    if cls c then
      match starRun cls cs k with
      | some r => some r
      | none => k (c :: cs)
    else k (c :: cs)

/-- Backtracking matcher in continuation-passing style; the first result found
is the leftmost-first (Perl) match that `regexp` returns. -/
def Regex.run {α : Type} : Regex → Str → Caps → (Str → Caps → Option α) → Option α
  | .lit s, inp, caps, k =>
    match stripLit s inp with
    | some rest => k rest caps
    | none => none
  | .star cls, inp, caps, k => starRun cls inp (fun rest => k rest caps)
  | .plus cls, inp, caps, k =>
    match inp with
    | [] => none
    | c :: cs => if cls c then starRun cls cs (fun rest => k rest caps) else none
  | .cat a b, inp, caps, k => a.run inp caps (fun rest caps1 => b.run rest caps1 k)
  | .group idx _ r, inp, caps, k =>
    r.run inp caps (fun rest caps1 =>
      k rest ((idx, inp.take (inp.length - rest.length)) :: caps1))

/-- Match anchored at the start of the input; group 0 is the whole match. -/
def Regex.matchHere (re : Regex) (inp : Str) : Option Caps :=
  re.run inp [] (fun rest caps => some ((0, inp.take (inp.length - rest.length)) :: caps))

/-- Unanchored search: the leftmost start position that admits a match. -/
def Regex.find (re : Regex) : Str → Option Caps
  | [] => re.matchHere []
  | c :: cs =>
    match re.matchHere (c :: cs) with
    | some caps => some caps
    | none => re.find cs

/-- Number of capture groups. -/
def Regex.numSubexp : Regex → Nat
  | .lit _ => 0
  | .star _ => 0
  | .plus _ => 0
  | .cat a b => a.numSubexp + b.numSubexp
  | .group _ _ r => r.numSubexp + 1

/-- Names of the groups in index order, without the entry for the whole match. -/
def Regex.groupNames : Regex → List Str
  | .lit _ => []
  | .star _ => []
  | .plus _ => []
  | .cat a b => a.groupNames ++ b.groupNames
  | .group _ name r => name :: r.groupNames

/-- `(*Regexp).SubexpNames`: entry 0 is the empty name of the whole match. -/
def Regex.SubexpNames (re : Regex) : List Str := [] :: re.groupNames

/-- `(*Regexp).FindStringSubmatch`: `nil` or the texts of groups `0..numSubexp`. -/
def Regex.FindStringSubmatch (re : Regex) (s : Str) : Option (List Str) :=
  match re.find s with
  | none => none
  | some caps => some ((List.range (re.numSubexp + 1)).map caps.get)

/-- Character class `[^c]`. -/
def notChar (c : Char) : Char → Bool := fun x => x != c

/-- Character class `[0-9]`. -/
def digit : Char → Bool := fun x => decide ('0' ≤ x) && decide (x ≤ '9')

/-- The pattern
`(terraform-provider-)(?P<type>[^_]*)_(?P<version>[0-9]+\.[0-9]+\.[0-9]+)_(?P<os>[^_]*)_(?P<arch>[^.]*)(\.zip)`. -/
def binaryNameExpression : Regex :=
  .cat (.group 1 [] (.lit "terraform-provider-".toList))
  (.cat (.group 2 "type".toList (.star (notChar '_')))
  (.cat (.lit ['_'])
  (.cat (.group 3 "version".toList
          (.cat (.plus digit) (.cat (.lit ['.']) (.cat (.plus digit)
            (.cat (.lit ['.']) (.plus digit))))))
  (.cat (.lit ['_'])
  (.cat (.group 4 "os".toList (.star (notChar '_')))
  (.cat (.lit ['_'])
  (.cat (.group 5 "arch".toList (.star (notChar '.')))
        (.group 6 [] (.lit ".zip".toList)))))))))

/-- The package variable `subExpressionNames`. -/
def subExpressionNames : List Str := binaryNameExpression.SubexpNames

/-! ## path -/

/-- Drop trailing slashes (first loop of `path.Base`), on the reversed path. -/
def dropSlashes : Str → Str
  | [] => []
  | c :: cs => if c = '/' then dropSlashes cs else c :: cs

/-- Characters up to the first slash. -/
def untilSlash : Str → Str
  | [] => []
  | c :: cs => if c = '/' then [] else c :: untilSlash cs

/-- Go `path.Base`: the last element of the path; `"."` for the empty path and
`"/"` for a path of slashes only. -/
def pathBase (p : Str) : Str :=
  if p = [] then ['.']
  else
    let r := dropSlashes p.reverse
    let b := (untilSlash r).reverse
    if b = [] then ['/'] else b

/-- Go `strings.Split(p, "/")`: the elements between slashes. -/
def splitSlash : Str → List Str
  | [] => [[]]
  | c :: cs =>
    if c = '/' then [] :: splitSlash cs
    else
      match splitSlash cs with
      | [] => [[c]]
      | x :: xs => (c :: x) :: xs

/-- Go `strings.Join(elems, "/")`. -/
def joinSlash : List Str → Str
  | [] => []
  | [x] => x
  | x :: y :: rest => x ++ '/' :: joinSlash (y :: rest)

/-- One element of the main loop of `path.Clean`.  `out` is the output so far as a
stack of elements (last one first): empty and `.` elements are skipped, `..` removes the
last real element, is dropped at the root, and is kept at the front of a relative path,
any other element is appended. -/
def cleanStep (rooted : Bool) (out : List Str) (elem : Str) : List Str :=
  if elem = [] then out
  else if elem = ['.'] then out
  else if elem = ['.', '.'] then
    match out with
    | [] => if rooted then [] else [['.', '.']]
    | top :: rest => if top = ['.', '.'] then elem :: top :: rest else rest
  else elem :: out

/-- Go `path.Clean`: the shortest equivalent path. -/
def pathClean (p : Str) : Str :=
  if p = [] then ['.']
  else
    let rooted := p.head? = some '/'
    let out := (splitSlash p).foldl (cleanStep rooted) []
    if rooted then '/' :: joinSlash out.reverse
    else if out = [] then ['.']
    else joinSlash out.reverse

/-- Body of the loop of `path.Join` that fills `buf`. -/
def joinStep (buf e : Str) : Str :=
  if buf ≠ [] ∨ e ≠ [] then (if buf ≠ [] then buf ++ ['/'] else buf) ++ e else buf

/-- Go `path.Join`. -/
def pathJoin (elem : List Str) : Str :=
  if (elem.map List.length).sum = 0 then []
  else pathClean (elem.foldl joinStep [])

/-! ## versions.BinaryMetaData -/

/-- Go `GpgSigningKey`; `SourceURL` is a nullable pointer. -/
structure GpgSigningKey where
  KeyID : Str
  ASCIIArmor : Str
  TrustSignature : Str
  Source : Str
  SourceURL : Option Str
  deriving DecidableEq, Repr

/-- Go `BinaryMetaData`; `SigningKeys` is the `gpg_public_keys` slice of the
anonymous struct. -/
structure BinaryMetaData where
  Protocols : List Str
  Os : Str
  Arch : Str
  Filename : Str
  DownloadURL : Str
  ShasumsURL : Str
  ShasumsSignatureURL : Str
  Shasum : Str
  SigningKeys : List GpgSigningKey
  Version : Str
  TypeName : Str
  deriving DecidableEq, Repr

/-- The zero value `BinaryMetaData{}`. -/
def BinaryMetaData.zero : BinaryMetaData :=
  { Protocols := [], Os := [], Arch := [], Filename := [], DownloadURL := [],
    ShasumsURL := [], ShasumsSignatureURL := [], Shasum := [], SigningKeys := [],
    Version := [], TypeName := [] }

/-- Reasons for which the process ends through `log.Fatalf`. -/
inductive Fatal where
  | missingChecksum (filename : Str)
  | malformedManifest (filename : Str) (fields : Nat)
  | unreadableManifest (filename : Str)
  | noProviders
  | cannotCreateWellKnown
  deriving DecidableEq, Repr

/-- Outcome of a step that may end the process. -/
inductive Run (α : Type) where
  | ok (a : α)
  | fatal (f : Fatal)
  deriving DecidableEq, Repr

/-- Go `map[string]string`. -/
abbrev StrMap := Str → Option Str

/-- One iteration of the `switch name` loop of `MakeFromFileName`. -/
def assignField (m : BinaryMetaData) (name value : Str) : BinaryMetaData :=
  if name = "type".toList then { m with TypeName := value }
  else if name = "version".toList then { m with Version := value }
  else if name = "os".toList then { m with Os := value }
  else if name = "arch".toList then { m with Arch := value }
  else m

/-- The loop `for i, name := range subExpressionNames` of `MakeFromFileName`;
`ms` holds `matches[i]` for the names still to visit. -/
def assignFields : BinaryMetaData → List Str → List Str → BinaryMetaData
  | m, [], _ => m
  | m, name :: names, ms => assignFields (assignField m name ms.headI) names ms.tail

/-- Go `MakeFromFileName`: `ok none` is the `nil` result, `fatal` the
`log.Fatalf` of the missing checksum. -/
def MakeFromFileName (baseURL filePath : Str) (shasums : StrMap) (protocols : List Str) :
    Run (Option BinaryMetaData) :=
  let filename := pathBase filePath
  match binaryNameExpression.FindStringSubmatch filename with
  | none => .ok none
  | some ms =>
    let metadata := assignFields BinaryMetaData.zero subExpressionNames ms
    let metadata := { metadata with DownloadURL := baseURL ++ ['/'] ++ filename }
    let metadata := { metadata with Protocols := protocols }
    let metadata := { metadata with
      ShasumsURL := baseURL ++ "/terraform-provider-".toList ++ metadata.TypeName ++ ['_']
        ++ metadata.Version ++ "_SHA256SUMS".toList }
    let metadata := { metadata with
      ShasumsSignatureURL := baseURL ++ "/terraform-provider-".toList ++ metadata.TypeName
        ++ ['_'] ++ metadata.Version ++ "_SHA256SUMS.sig".toList }
    let metadata := { metadata with Filename := filename }
    match shasums filename with
    | some sum => .ok (some { metadata with Shasum := sum })
    | none => .fatal (.missingChecksum filename)

/-- The fields of a record that reach its JSON document: `Version` and `TypeName`
carry the tag `json:"-"`. -/
def BinaryMetaData.persisted (m : BinaryMetaData) : BinaryMetaData :=
  { m with Version := [], TypeName := [] }

/-- The struct built by `(*BinaryMetaData).Platform`. -/
structure Platform where
  Os : Str
  Arch : Str
  deriving DecidableEq, Repr

/-- Go `(*BinaryMetaData).Platform`. -/
def BinaryMetaData.Platform (m : BinaryMetaData) : Platform := { Os := m.Os, Arch := m.Arch }

/-- The fields of `signing_key.PGPSigningKey` that `SetPGPSigningKey` reads. -/
structure PGPSigningKey where
  KeyID : Str
  ASCIIArmor : Str
  deriving DecidableEq, Repr

/-- Go `BinaryMetaDataList.SetPGPSigningKey`. -/
def SetPGPSigningKey (l : List BinaryMetaData) (signingKey : PGPSigningKey) :
    List BinaryMetaData :=
  l.map (fun m => { m with SigningKeys :=
    [{ KeyID := signingKey.KeyID, ASCIIArmor := signingKey.ASCIIArmor, TrustSignature := [],
       Source := [], SourceURL := none }] })

/-- The loop of `CreateFromFileList`; `result` is the slice built so far. -/
def createLoop (baseURL : Str) (shasums : StrMap) (protocols : List Str) :
    List Str → List BinaryMetaData → Run (List BinaryMetaData)
  | [], result => .ok result
  | f :: files, result =>
    match MakeFromFileName baseURL f shasums protocols with
    | .fatal e => .fatal e
    | .ok none => createLoop baseURL shasums protocols files result
    | .ok (some metadata) => createLoop baseURL shasums protocols files (result ++ [metadata])

/-- Go `CreateFromFileList`. -/
def CreateFromFileList (files : List Str) (baseURL : Str) (signingKey : PGPSigningKey)
    (shasums : StrMap) (protocols : List Str) : Run (List BinaryMetaData) :=
  match createLoop baseURL shasums protocols files [] with
  | .fatal e => .fatal e
  | .ok result => .ok (SetPGPSigningKey result signingKey)

/-! ## versions.ProviderVersions -/

/-- Modelled from the spec: one entry of the version list, the triple of version,
protocol list and per-platform entries (the type `ProviderVersion` is declared in a file
that is not among the sources). -/
structure ProviderVersion where
  Version : Str
  Protocols : List Str
  Platforms : List Platform
  deriving DecidableEq, Repr

/-- Modelled from the spec: the per-provider aggregate `ProviderVersions`, an ordered
collection of version entries (declared in a file that is not among the sources). -/
structure ProviderVersions where
  Versions : List ProviderVersion
  deriving DecidableEq, Repr, Inhabited

/-- The zero value `ProviderVersions{}`. -/
def ProviderVersions.zero : ProviderVersions := { Versions := [] }

/-- Whether the aggregate has an entry for the version. -/
def ProviderVersions.has (p : ProviderVersions) (v : Str) : Bool :=
  p.Versions.any (fun e => decide (e.Version = v))

/-- Modelled from the spec: `ProviderVersions.Add`, defined in a file that is not among
the sources.  A record of a version already present adds its platform to that entry, a
record of a new version appends the triple of its version, protocols and platform. -/
def ProviderVersions.Add (p : ProviderVersions) (m : BinaryMetaData) : ProviderVersions :=
  if p.has m.Version then
    { Versions := p.Versions.map (fun e =>
        if e.Version = m.Version then { e with Platforms := e.Platforms ++ [m.Platform] }
        else e) }
  else
    { Versions := p.Versions ++
        [{ Version := m.Version, Protocols := m.Protocols, Platforms := [m.Platform] }] }

/-- Modelled from the spec: `ProviderVersions.Merge`, defined in a file that is not among
the sources.  For each version present in `incoming`, in order: if absent in `existing`,
append; if present, leave the entry of `existing` untouched. -/
def ProviderVersions.Merge (existing incoming : ProviderVersions) : ProviderVersions :=
  incoming.Versions.foldl
    (fun acc e => if acc.has e.Version then acc else { Versions := acc.Versions ++ [e] })
    existing

/-- The invariant of the aggregate: a version number appears at most once. -/
def ProviderVersions.WellFormed (p : ProviderVersions) : Prop :=
  (p.Versions.map (fun e => e.Version)).Nodup

instance (p : ProviderVersions) : Decidable p.WellFormed := by
  unfold ProviderVersions.WellFormed; infer_instance

/-- Go `map[string]*ProviderVersions`, as the list of its entries in order of insertion. -/
abbrev ProviderMap := List (Str × ProviderVersions)

/-- Go `result[key]` on the provider map. -/
def ProviderMap.get : ProviderMap → Str → Option ProviderVersions
  | [], _ => none
  | (k, v) :: rest, key => if k = key then some v else ProviderMap.get rest key

/-- Body of the loop of `ExtractVersions`: find the aggregate of the type, creating an
empty one when there is none, and add the record to it. -/
def extractStep (result : ProviderMap) (meta : BinaryMetaData) : ProviderMap :=
  match result.get meta.TypeName with
  | none => result ++ [(meta.TypeName, ProviderVersions.zero.Add meta)]
  | some _ =>
    result.map (fun kv => if kv.1 = meta.TypeName then (kv.1, kv.2.Add meta) else kv)

/-- Go `BinaryMetaDataList.ExtractVersions`. -/
def ExtractVersions (l : List BinaryMetaData) : ProviderMap :=
  l.foldl extractStep []

/-! ## The output tree -/

/-- A persisted JSON document, by the Go type it is encoded from.  `other` stands for
any content that is none of the three. -/
inductive Doc where
  | discovery (content : List (Str × Str))
  | versions (v : ProviderVersions)
  | descriptor (m : BinaryMetaData)
  | other
  deriving DecidableEq, Repr

/-- What stands at a path: a regular file with its content, or a directory. -/
inductive Node where
  | file (d : Doc)
  | dir
  deriving DecidableEq, Repr

/-- The file system below the working directory: what stands at each path, a path being
the list of its elements; the empty list is the working directory itself.  Access rights
are not part of it: a call fails only where a file stands in the place of a directory, a
directory in the place of a file, or a directory is missing. -/
abbrev FileSystem := List Str → Option Node

/-- The elements of a cleaned path; `.` is the working directory. -/
def pathKey (p : Str) : List Str := if p = ['.'] then [] else splitSlash p

/-- Whether a regular file stands at the path. -/
def isFileAt (fs : FileSystem) (k : List Str) : Bool :=
  match fs k with
  | some (.file _) => true
  | _ => false

/-- Whether a directory stands at the path; the working directory is one. -/
def isDirAt (fs : FileSystem) (k : List Str) : Bool :=
  decide (k = []) || decide (fs k = some .dir)

/-- Whether `q` is an initial segment of `k`. -/
def isPrefix : List Str → List Str → Bool
  | [], _ => true
  | _ :: _, [] => false
  | a :: q, b :: k => decide (a = b) && isPrefix q k

/-- Remove the last path element together with nothing else: the text up to and including
the last slash, on the reversed path (`path.Split`). -/
def dropToSlash : Str → Str
  | [] => []
  | c :: cs => if c = '/' then c :: cs else dropToSlash cs

/-- Go `path.Dir`: all but the last element of the path, cleaned. -/
def pathDir (p : Str) : Str := pathClean (dropToSlash p.reverse).reverse

/-- The file system with directories at `k` and at all its ancestors. -/
def FileSystem.withDirs (fs : FileSystem) (k : List Str) : FileSystem :=
  fun q => if q ≠ [] ∧ isPrefix q k = true then some .dir else fs q

/-- The file system with a regular file of the given content at `k`. -/
def FileSystem.withFile (fs : FileSystem) (k : List Str) (content : Doc) : FileSystem :=
  fun q => if q = k then some (.file content) else fs q

/-- Go `os.MkdirAll`: when a regular file stands at the path or at one of its ancestors
the call fails and creates nothing; otherwise the path and all its ancestors are
directories afterwards.  The flag tells whether the call returned `nil`. -/
def MkdirAll (path : Str) (fs : FileSystem) : FileSystem × Bool :=
  if (pathKey path).inits.any (fun q => isFileAt fs q) then (fs, false)
  else (fs.withDirs (pathKey path), true)

/-- Go `os.Create` followed by the encoding of `content` into the file: the call fails
when the parent is not a directory or a directory stands at the path itself. -/
def createFile (fs : FileSystem) (k : List Str) (content : Doc) : Option FileSystem :=
  if isDirAt fs k.dropLast = true ∧ isDirAt fs k = false then some (fs.withFile k content)
  else none

/-- One call of `writeJson` that reached the file. -/
structure Write where
  path : Str
  doc : Doc
  deriving DecidableEq, Repr

/-- The file system together with the writes performed so far. -/
structure World where
  fs : FileSystem
  log : List Write

/-- Go `writeJson`: when `os.Create` fails the error is logged and nothing is written.
The documents are built of strings and lists of strings, whose encoding does not fail. -/
def writeJson (filename : Str) (content : Doc) (w : World) : World :=
  match createFile w.fs (pathKey filename) content with
  | some fs => { fs := fs, log := w.log ++ [{ path := filename, doc := content }] }
  | none => w

/-- `readJson` into a `map[string]string`: when the file cannot be read or does not hold
such a document the map stays empty. -/
def readDiscovery (fs : FileSystem) (filename : Str) : List (Str × Str) :=
  match fs (pathKey filename) with
  | some (.file (.discovery content)) => content
  | _ => []

/-- `readJson` into a `ProviderVersions`: when the file cannot be read or does not hold
such a document the zero value stays. -/
def readVersions (fs : FileSystem) (filename : Str) : ProviderVersions :=
  match fs (pathKey filename) with
  | some (.file (.versions v)) => v
  | _ => ProviderVersions.zero

/-- `reflect.DeepEqual` on two `map[string]string`, given by their entries (the first
entry of a key is its value): the same keys with the same values. -/
def mapDeepEqual (a b : List (Str × Str)) : Bool :=
  (a.map Prod.fst ++ b.map Prod.fst).all (fun k => decide (a.lookup k = b.lookup k))

/-- Go `assertDiscoveryDocument`.  The first component is the `log.Fatalf` of a failed
`os.MkdirAll`, if it happened. -/
def assertDiscoveryDocument (outputDir v1ProvidersPath : Str) (w : World) :
    Option Fatal × World :=
  let v1ProvidersPath := pathJoin ["/".toList, v1ProvidersPath] ++ "/".toList
  let expect := [("providers.v1".toList, v1ProvidersPath)]
  let p := pathJoin [outputDir, ".well-known".toList, "terraform.json".toList]
  let content := readDiscovery w.fs p
  if !mapDeepEqual expect content then
    match MkdirAll (pathDir p) w.fs with
    | (fs, false) => (some .cannotCreateWellKnown, { w with fs := fs })
    | (fs, true) => (none, writeJson p (.discovery expect) { w with fs := fs })
  else (none, w)

/-- Go `writeProviderVersions`. -/
def writeProviderVersions (directory : Str) (newVersions : ProviderVersions) (w : World) :
    World :=
  let existing := readVersions w.fs (pathJoin [directory, "versions".toList])
  if existing = newVersions then w
  else writeJson (pathJoin [directory, "versions".toList])
    (.versions (existing.Merge newVersions)) w

/-- Go `writeProviderVersion`: a failed `os.MkdirAll` is logged and the write is tried
all the same. -/
def writeProviderVersion (directory : Str) (version : BinaryMetaData) (w : World) : World :=
  let filename :=
    pathJoin [directory, version.Version, "download".toList, version.Os, version.Arch]
  let dirname := pathDir filename
  writeJson filename (.descriptor version.persisted)
    { w with fs := (MkdirAll dirname w.fs).1 }

/-- Go `WriteAPIDocuments`, `ns` being its argument `namespace`.  Go leaves the order in
which a map is ranged over open; the providers are visited in order of first occurrence.
The first component is the fatal error that ended the process, if any. -/
def WriteAPIDocuments (ns : Str) (binaries : List BinaryMetaData) (w : World) :
    Option Fatal × World :=
  let outputDir := "registry".toList
  let v1ProvidersDir := pathJoin ["registry".toList, "v1".toList, "providers".toList]
  match assertDiscoveryDocument outputDir v1ProvidersDir w with
  | (some e, w) => (some e, w)
  | (none, w) =>
    let providerDirectory := pathJoin [outputDir, v1ProvidersDir, ns]
    let providers := ExtractVersions binaries
    let w := binaries.foldl
      (fun w binary => writeProviderVersion (pathJoin [providerDirectory, binary.TypeName])
        binary w) w
    (none, providers.foldl
      (fun w kv => writeProviderVersions (pathJoin [providerDirectory, kv.1]) kv.2 w) w)

/-! ## Checksum manifests -/

/-- Go `unicode.IsSpace`. -/
def isSpace (c : Char) : Bool :=
  let n := c.toNat
  (9 ≤ n && n ≤ 13) || n = 0x20 || n = 0x85 || n = 0xA0 || n = 0x1680 ||
    (0x2000 ≤ n && n ≤ 0x200A) || n = 0x2028 || n = 0x2029 || n = 0x202F || n = 0x205F ||
    n = 0x3000

/-- The scan of `strings.Fields`; `cur` is the field being read, last character first. -/
def fieldsAux : Str → Str → List Str
  | [], cur => if cur = [] then [] else [cur.reverse]
  | c :: cs, cur =>
    if isSpace c then
      if cur = [] then fieldsAux cs [] else cur.reverse :: fieldsAux cs []
    else fieldsAux cs (c :: cur)

/-- Go `strings.Fields`: the maximal runs of non-space characters. -/
def Fields (s : Str) : List Str := fieldsAux s []

/-- Go `bufio.MaxScanTokenSize`, the buffer limit of a `bufio.Scanner`. -/
def MaxScanTokenSize : Nat := 64 * 1024

/-- The `dropCR` of `bufio.ScanLines`, on the reversed line. -/
def dropCR : Str → Str
  | [] => []
  | c :: cs => if c = '\r' then cs else c :: cs

/-- The lines that successive calls of `scanner.Scan()` deliver with the split function
`bufio.ScanLines`.  `cur` is the line being read (last character first) and `n` its length
in bytes.  A line is delivered without its end-of-line marker; a last line without newline
is delivered when it is not empty.  A line that does not fit the buffer of
`MaxScanTokenSize` bytes together with its newline makes `Scan` return false for good
(`ErrTooLong`), which ends the loop of the caller. -/
def scanAux : Str → Str → Nat → List Str
  | [], cur, n =>
    if n = 0 then [] else if n < MaxScanTokenSize then [(dropCR cur).reverse] else []
  | c :: cs, cur, n =>
    if c = '\n' then
      if n < MaxScanTokenSize then (dropCR cur).reverse :: scanAux cs [] 0 else []
    else scanAux cs (c :: cur) (n + c.utf8Size)

/-- The lines seen by `for scanner.Scan() { ... scanner.Text() ... }`. -/
def scanLines (data : Str) : List Str := scanAux data [] 0

/-- Go `shasums[key] = value`. -/
def StrMap.set (m : StrMap) (key value : Str) : StrMap :=
  fun k => if k = key then some value else m k

/-- The loop of `readShasums` over the scanned lines. -/
def readShasumsLoop (filename : Str) : List Str → StrMap → Run StrMap
  | [], shasums => .ok shasums
  | line :: rest, shasums =>
    match Fields line with
    | [digest, name] => readShasumsLoop filename rest (shasums.set name digest)
    | fields => .fatal (.malformedManifest filename fields.length)

/-- Go `readShasums`.  `file` is the content of the file, `none` when `os.Open` fails
(the text of its error is never `storage: object doesn't exist`, so the error is
returned).  `ok none` stands for the returned error, `ok (some m)` for the return of
`nil` with the map updated to `m`, `fatal` for the `log.Fatalf` inside the loop.  The
error of the scanner is not looked at. -/
def readShasums (filename : Str) (file : Option Str) (shasums : StrMap) :
    Run (Option StrMap) :=
  match file with
  | none => .ok none
  | some content =>
    match readShasumsLoop filename (scanLines content) shasums with
    | .fatal e => .fatal e
    | .ok m => .ok (some m)

/-! ## main -/

/-- The loop of `main` that fills the checksum index from the files whose name ends in
`SHA256SUMS`. -/
def shasumsLoop (readFile : Str → Option Str) : List Str → StrMap → Run StrMap
  | [], shasums => .ok shasums
  | filename :: rest, shasums =>
    if "SHA256SUMS".toList.isSuffixOf filename then
      match readShasums filename (readFile filename) shasums with
      | .fatal e => .fatal e
      | .ok none => .fatal (.unreadableManifest filename)
      | .ok (some m) => shasumsLoop readFile rest m
    else shasumsLoop readFile rest shasums

/-- Go `main`, from the walk of the release directory on.  `walked` are the paths the
walk visits and `readFile` their contents; the options and the signing key come from the
command line and from the key store.  The result is the fatal error that ended the
process, if any, and the output tree left behind. -/
def main (Namespace Url : Str) (protocols : List Str) (signingKey : PGPSigningKey)
    (walked : List Str) (readFile : Str → Option Str) (w : World) : Option Fatal × World :=
  let filenames := List.replicate 5 [] ++ walked
  match shasumsLoop readFile filenames (fun _ => none) with
  | .fatal e => (some e, w)
  | .ok shasums =>
    match CreateFromFileList filenames Url signingKey shasums protocols with
    | .fatal e => (some e, w)
    | .ok binaries =>
      let providers := ExtractVersions binaries
      if providers.length = 0 then (some .noProviders, w)
      else WriteAPIDocuments Namespace binaries w

/-! ## Vocabulary of the statements -/

/-- Relational reading of a pattern: `re.Parses u c c1` says that `re` matches
exactly the text `u`, turning the captures `c` into `c1`. -/
def Regex.Parses : Regex → Str → Caps → Caps → Prop
  | .lit s, u, c, c1 => u = s ∧ c1 = c
  | .star cls, u, c, c1 => (∀ x ∈ u, cls x = true) ∧ c1 = c
  | .plus cls, u, c, c1 => u ≠ [] ∧ (∀ x ∈ u, cls x = true) ∧ c1 = c
  | .cat a b, u, c, c1 => ∃ u1 u2 c2, u = u1 ++ u2 ∧ a.Parses u1 c c2 ∧ b.Parses u2 c2 c1
  | .group idx _ r, u, c, c1 => ∃ c2, r.Parses u c c2 ∧ c1 = (idx, u) :: c2

/-- A non-empty string of ASCII digits. -/
def IsDigits (s : Str) : Prop := s ≠ [] ∧ ∀ c ∈ s, digit c = true

/-- Side conditions on the parts of a release file name: type and os without
underscore, arch without dot, numeric version components. -/
def IsReleaseFields (type maj min pat os arch : Str) : Prop :=
  '_' ∉ type ∧ IsDigits maj ∧ IsDigits min ∧ IsDigits pat ∧ '_' ∉ os ∧ '.' ∉ arch

instance (s : Str) : Decidable (IsDigits s) := by
  unfold IsDigits; infer_instance

instance (type maj min pat os arch : Str) :
    Decidable (IsReleaseFields type maj min pat os arch) := by
  unfold IsReleaseFields; infer_instance

/-- The version text `<MAJOR>.<MINOR>.<PATCH>`. -/
def semver (maj min pat : Str) : Str := maj ++ '.' :: (min ++ '.' :: pat)

/-- The name `terraform-provider-<type>_<MAJOR>.<MINOR>.<PATCH>_<os>_<arch>.zip`. -/
def releaseFileName (type maj min pat os arch : Str) : Str :=
  "terraform-provider-".toList ++ (type ++ '_' :: (semver maj min pat ++
    '_' :: (os ++ '_' :: (arch ++ ".zip".toList))))

/-- The captures of a parse of the release pattern. -/
def releaseCaps (type maj min pat os arch : Str) : Caps :=
  [(6, ".zip".toList), (5, arch), (4, os), (3, semver maj min pat), (2, type),
    (1, "terraform-provider-".toList)]

/-- The string is exactly a release file name. -/
def IsReleaseName (s : Str) : Prop :=
  ∃ type maj min pat os arch,
    IsReleaseFields type maj min pat os arch ∧ s = releaseFileName type maj min pat os arch

/-- The string has a release file name somewhere inside it. -/
def ContainsReleaseName (s : Str) : Prop :=
  ∃ pre u post, IsReleaseName u ∧ s = pre ++ u ++ post

/-- A path element that `path.Clean` keeps as it is: not empty, without slash, and
neither `.` nor `..`. -/
def IsToken (s : Str) : Prop := s ≠ [] ∧ '/' ∉ s ∧ s ≠ ['.'] ∧ s ≠ ['.', '.']

instance (s : Str) : Decidable (IsToken s) := by
  unfold IsToken; infer_instance

/-- A non-empty list of path elements that `path.Clean` keeps. -/
def IsTokenList (es : List Str) : Prop := es ≠ [] ∧ ∀ e ∈ es, IsToken e

instance (es : List Str) : Decidable (IsTokenList es) := by
  unfold IsTokenList; infer_instance

/-- The elements of the provider directory of a namespace, from the working directory:
the output root `registry`, then `registry/v1/providers/<namespace>`. -/
def providerTokens (ns : Str) : List Str :=
  ["registry".toList, "registry".toList, "v1".toList, "providers".toList, ns]

/-- Elements of the path of the per-platform descriptor of a record. -/
def descriptorKey (ns : Str) (b : BinaryMetaData) : List Str :=
  providerTokens ns ++ [b.TypeName, b.Version, "download".toList, b.Os, b.Arch]

/-- Elements of the path of the version list of a provider type. -/
def versionsKey (ns type : Str) : List Str :=
  providerTokens ns ++ [type, "versions".toList]

/-- Elements of the path of the discovery document. -/
def discoveryKey : List Str :=
  ["registry".toList, ".well-known".toList, "terraform.json".toList]

/-- Path of the per-platform descriptor of a record, from the working directory. -/
def descriptorPath (ns : Str) (b : BinaryMetaData) : Str := joinSlash (descriptorKey ns b)

/-- Path of the version list of a provider type, from the working directory. -/
def versionsPath (ns type : Str) : Str := joinSlash (versionsKey ns type)

/-- Path of the discovery document, from the working directory. -/
def discoveryPath : Str := "registry/.well-known/terraform.json".toList

/-- The paths of the layout: the discovery document, the per-platform descriptors (of a
version other than the word `versions`) and the version lists. -/
def IsLayoutKey (k : List Str) : Prop :=
  k = discoveryKey ∨
  (∃ ns t v o a, v ≠ "versions".toList ∧
    k = providerTokens ns ++ [t, v, "download".toList, o, a]) ∨
  (∃ ns t, k = providerTokens ns ++ [t, "versions".toList])

/-- An output tree that holds nothing but the layout: every regular file stands at a path
of the layout and every directory is a proper ancestor of such a path.  The empty tree
is one, and so is what a run leaves behind when it starts from one. -/
def Conforms (fs : FileSystem) : Prop :=
  (∀ k d, fs k = some (.file d) → IsLayoutKey k) ∧
  (∀ k, fs k = some .dir → ∃ p, IsLayoutKey p ∧ k <+: p ∧ k ≠ p)

/-- The write of the per-platform descriptor of a record. -/
def descriptorWrite (ns : Str) (b : BinaryMetaData) : Write :=
  { path := descriptorPath ns b, doc := .descriptor b.persisted }

/-- The fields of a record that enter its path are path elements kept by `path.Clean`. -/
def HasTokens (b : BinaryMetaData) : Prop :=
  IsToken b.TypeName ∧ IsToken b.Version ∧ IsToken b.Os ∧ IsToken b.Arch

instance (b : BinaryMetaData) : Decidable (HasTokens b) := by
  unfold HasTokens; infer_instance

/-- The discovery document that `WriteAPIDocuments` expects. -/
def expectedDiscovery : List (Str × Str) :=
  [("providers.v1".toList, "/registry/v1/providers/".toList)]

/-- The empty output tree. -/
def emptyWorld : World := { fs := fun _ => none, log := [] }

/-- A persisted version list with one entry for 1.0.0. -/
def exampleExisting : ProviderVersions :=
  { Versions := [{ Version := "1.0.0".toList, Protocols := ["5.0".toList],
                   Platforms := [{ Os := "linux".toList, Arch := "amd64".toList }] }] }

/-- An incoming version list with another entry for 1.0.0 and an entry for 1.1.0. -/
def exampleIncoming : ProviderVersions :=
  { Versions := [{ Version := "1.0.0".toList, Protocols := ["6.0".toList],
                   Platforms := [{ Os := "darwin".toList, Arch := "arm64".toList }] },
                 { Version := "1.1.0".toList, Protocols := ["6.0".toList],
                   Platforms := [{ Os := "linux".toList, Arch := "amd64".toList }] }] }

/-- A release directory with a checksum manifest that lists the darwin archive only. -/
def exampleReadFile : Str → Option Str := fun p =>
  if p = "dist/terraform-provider-foo_1.0.0_SHA256SUMS".toList then
    some "def456  terraform-provider-foo_1.0.0_darwin_arm64.zip\n".toList
  else none

/-- The paths of the walk of that release directory. -/
def exampleWalk : List Str :=
  ["dist".toList, "dist/terraform-provider-foo_1.0.0_SHA256SUMS".toList,
   "dist/terraform-provider-foo_1.0.0_linux_amd64.zip".toList]

/-- The lines of a manifest, read off its content: the pieces that end in a newline, and
a last piece without newline when it is not empty.  `cur` is the piece being read, last
character first. -/
def manifestLinesAux : Str → Str → List Str
  | [], cur => if cur = [] then [] else [cur.reverse]
  | c :: cs, cur =>
    if c = '\n' then cur.reverse :: manifestLinesAux cs [] else manifestLinesAux cs (c :: cur)

/-- The lines of a manifest. -/
def manifestLines (content : Str) : List Str := manifestLinesAux content []

/-- Length of a string in bytes (UTF-8). -/
def utf8Len (s : Str) : Nat := (s.map Char.utf8Size).sum

/-- A line without the carriage return that may end it. -/
def stripCR (l : Str) : Str := (dropCR l.reverse).reverse

/-- A persisted version list that holds 1.0.0 twice. -/
def exampleDuplicated : ProviderVersions :=
  { Versions := [{ Version := "1.0.0".toList, Protocols := ["5.0".toList],
                   Platforms := [{ Os := "linux".toList, Arch := "amd64".toList }] },
                 { Version := "1.0.0".toList, Protocols := ["4.0".toList],
                   Platforms := [{ Os := "linux".toList, Arch := "arm64".toList }] }] }

/-- A checksum index with a single entry. -/
def singleIndex (name sum : Str) : StrMap := fun f => if f = name then some sum else none

/-- The empty checksum index. -/
def emptyIndex : StrMap := fun _ => none

/-- The record of `terraform-provider-foo_1.0.0_linux_amd64.zip` under the base URL
`https://example.com/dl`, before the signing key is attached. -/
def exampleRecord (protocols : List Str) (sum : Str) : BinaryMetaData :=
  { Protocols := protocols
    Os := "linux".toList
    Arch := "amd64".toList
    Filename := "terraform-provider-foo_1.0.0_linux_amd64.zip".toList
    DownloadURL := "https://example.com/dl/terraform-provider-foo_1.0.0_linux_amd64.zip".toList
    ShasumsURL := "https://example.com/dl/terraform-provider-foo_1.0.0_SHA256SUMS".toList
    ShasumsSignatureURL :=
      "https://example.com/dl/terraform-provider-foo_1.0.0_SHA256SUMS.sig".toList
    Shasum := sum
    SigningKeys := []
    Version := "1.0.0".toList
    TypeName := "foo".toList }

/-- The record of `exampleRecord` for the earlier version 0.9.0. -/
def exampleOlderRecord : BinaryMetaData :=
  { exampleRecord ["5.0".toList] "abc123".toList with Version := "0.9.0".toList }

/-- A record whose version is the word `versions`. -/
def exampleVersionsRecord : BinaryMetaData :=
  { exampleRecord ["5.0".toList] "abc123".toList with Version := "versions".toList }

/-- A working directory in which `registry` is a regular file. -/
def blockedWorld : World :=
  { fs := fun k => if k = ["registry".toList] then some (.file .other) else none, log := [] }

/-! ## Theorems -/

/-! ### The matcher against the relational reading -/

theorem stripLit_eq_some (s inp rest : Str) :
    stripLit s inp = some rest ↔ inp = s ++ rest := by
  induction s generalizing inp with
  | nil => simp [stripLit, eq_comm]
  | cons a s ih =>
    cases inp with
    | nil => simp [stripLit]
    | cons b inp =>
      by_cases h : a = b
      · subst h; simp [stripLit, ih]
      · simp [stripLit, h]; intro hb; exact absurd hb.symm h

theorem stripLit_append (s rest : Str) : stripLit s (s ++ rest) = some rest :=
  (stripLit_eq_some s _ rest).2 rfl

theorem take_sub_length (u v : Str) : (u ++ v).take ((u ++ v).length - v.length) = u := by
  simp

theorem starRun_sound {α : Type} (cls : Char → Bool) (inp : Str) (k : Str → Option α) (x : α)
    (h : starRun cls inp k = some x) :
    ∃ u v, inp = u ++ v ∧ (∀ c ∈ u, cls c = true) ∧ k v = some x := by
  induction inp with
  | nil => exact ⟨[], [], rfl, by simp, by simpa [starRun] using h⟩
  | cons c cs ih =>
    unfold starRun at h
    by_cases hc : cls c = true
    · rw [if_pos hc] at h
      cases hr : starRun cls cs k with
      | some r =>
        rw [hr] at h
        have hrx : r = x := by simpa using h
        subst hrx
        obtain ⟨u, v, huv, hu, hk⟩ := ih hr
        refine ⟨c :: u, v, by simp [huv], ?_, hk⟩
        intro y hy
        rcases List.mem_cons.1 hy with rfl | hy
        · exact hc
        · exact hu y hy
      | none =>
        rw [hr] at h
        exact ⟨[], c :: cs, rfl, by simp, h⟩
    · rw [if_neg hc] at h
      exact ⟨[], c :: cs, rfl, by simp, h⟩

theorem starRun_isSome {α : Type} (cls : Char → Bool) (v : Str) (k : Str → Option α)
    (hk : (k v).isSome = true) : (starRun cls v k).isSome = true := by
  cases v with
  | nil => simpa [starRun] using hk
  | cons c cs =>
    unfold starRun
    by_cases hc : cls c = true
    · rw [if_pos hc]
      cases hr : starRun cls cs k with
      | some r => rfl
      | none => exact hk
    · rw [if_neg hc]; exact hk

theorem starRun_complete {α : Type} (cls : Char → Bool) (u v : Str) (k : Str → Option α)
    (hu : ∀ c ∈ u, cls c = true) (hk : (k v).isSome = true) :
    (starRun cls (u ++ v) k).isSome = true := by
  induction u with
  | nil => exact starRun_isSome cls v k hk
  | cons c u ih =>
    have hc : cls c = true := hu c (List.mem_cons_self _ _)
    have ih1 := ih (fun y hy => hu y (List.mem_cons_of_mem _ hy))
    show (starRun cls (c :: (u ++ v)) k).isSome = true
    unfold starRun
    rw [if_pos hc]
    cases hr : starRun cls (u ++ v) k with
    | some r => rfl
    | none => rw [hr] at ih1; exact absurd ih1 (by simp)

theorem Regex.run_sound {α : Type} (re : Regex) (inp : Str) (caps : Caps)
    (k : Str → Caps → Option α) (x : α) (h : re.run inp caps k = some x) :
    ∃ u v c1, inp = u ++ v ∧ re.Parses u caps c1 ∧ k v c1 = some x := by
  induction re generalizing inp caps k with
  | lit s =>
    unfold Regex.run at h
    cases hs : stripLit s inp with
    | none => rw [hs] at h; exact absurd h (by simp)
    | some rest =>
      rw [hs] at h
      exact ⟨s, rest, caps, (stripLit_eq_some s inp rest).1 hs, ⟨rfl, rfl⟩, h⟩
  | star cls =>
    unfold Regex.run at h
    obtain ⟨u, v, huv, hu, hk⟩ := starRun_sound cls inp _ x h
    exact ⟨u, v, caps, huv, ⟨hu, rfl⟩, hk⟩
  | plus cls =>
    unfold Regex.run at h
    cases inp with
    | nil => exact absurd h (by simp)
    | cons c cs =>
      by_cases hc : cls c = true
      · simp only [if_pos hc] at h
        obtain ⟨u, v, huv, hu, hk⟩ := starRun_sound cls cs _ x h
        refine ⟨c :: u, v, caps, by simp [huv], ⟨by simp, ?_, rfl⟩, hk⟩
        intro y hy
        rcases List.mem_cons.1 hy with rfl | hy
        · exact hc
        · exact hu y hy
      · simp only [if_neg hc] at h
        exact absurd h (by simp)
  | cat a b iha ihb =>
    unfold Regex.run at h
    obtain ⟨u1, v1, c1, h1, hp1, hk1⟩ := iha inp caps _ h
    obtain ⟨u2, v2, c2, h2, hp2, hk2⟩ := ihb v1 c1 k hk1
    exact ⟨u1 ++ u2, v2, c2, by rw [h1, h2, List.append_assoc],
      ⟨u1, u2, c1, rfl, hp1, hp2⟩, hk2⟩
  | group idx name r ih =>
    unfold Regex.run at h
    obtain ⟨u, v, c1, huv, hp, hk⟩ := ih inp caps _ h
    subst huv
    rw [take_sub_length] at hk
    exact ⟨u, v, (idx, u) :: c1, rfl, ⟨c1, hp, rfl⟩, hk⟩

theorem Regex.Parses_any_caps (re : Regex) (u : Str) (c c1 d : Caps)
    (hp : re.Parses u c c1) : ∃ d1, re.Parses u d d1 := by
  induction re generalizing u c c1 d with
  | lit s => exact ⟨d, hp.1, rfl⟩
  | star cls => exact ⟨d, hp.1, rfl⟩
  | plus cls => exact ⟨d, hp.1, hp.2.1, rfl⟩
  | cat a b iha ihb =>
    obtain ⟨u1, u2, c2, rfl, hp1, hp2⟩ := hp
    obtain ⟨d2, hd2⟩ := iha u1 c c2 d hp1
    obtain ⟨d1, hd1⟩ := ihb u2 c2 c1 d2 hp2
    exact ⟨d1, u1, u2, d2, rfl, hd2, hd1⟩
  | group idx name r ih =>
    obtain ⟨c2, hp1, _⟩ := hp
    obtain ⟨d2, hd2⟩ := ih u c c2 d hp1
    exact ⟨(idx, u) :: d2, d2, hd2, rfl⟩

theorem Regex.run_complete {α : Type} (re : Regex) (u v : Str) (caps c1 : Caps)
    (k : Str → Caps → Option α) (hp : re.Parses u caps c1)
    (hk : ∀ c, (k v c).isSome = true) : (re.run (u ++ v) caps k).isSome = true := by
  induction re generalizing u v caps c1 k with
  | lit s =>
    obtain ⟨rfl, _⟩ := hp
    unfold Regex.run
    rw [stripLit_append]
    exact hk caps
  | star cls =>
    obtain ⟨hu, _⟩ := hp
    unfold Regex.run
    exact starRun_complete cls u v _ hu (hk caps)
  | plus cls =>
    obtain ⟨hne, hu, _⟩ := hp
    cases u with
    | nil => exact absurd rfl hne
    | cons c u =>
      have hc : cls c = true := hu c (List.mem_cons_self _ _)
      show (Regex.run (.plus cls) (c :: (u ++ v)) caps k).isSome = true
      unfold Regex.run
      simp only [if_pos hc]
      exact starRun_complete cls u v _ (fun y hy => hu y (List.mem_cons_of_mem _ hy)) (hk caps)
  | cat a b iha ihb =>
    obtain ⟨u1, u2, c2, rfl, hp1, hp2⟩ := hp
    unfold Regex.run
    rw [List.append_assoc]
    refine iha u1 (u2 ++ v) caps c2 _ hp1 (fun c => ?_)
    obtain ⟨d1, hd1⟩ := Regex.Parses_any_caps b u2 c2 c1 c hp2
    exact ihb u2 v c d1 k hd1 hk
  | group idx name r ih =>
    obtain ⟨c2, hp1, _⟩ := hp
    unfold Regex.run
    exact ih u v caps c2 _ hp1 (fun c => hk _)

theorem Regex.matchHere_sound (re : Regex) (inp : Str) (caps : Caps)
    (h : re.matchHere inp = some caps) :
    ∃ u v c1, inp = u ++ v ∧ re.Parses u [] c1 ∧ caps = (0, u) :: c1 := by
  unfold Regex.matchHere at h
  obtain ⟨u, v, c1, huv, hp, hk⟩ := Regex.run_sound re inp [] _ caps h
  subst huv
  rw [take_sub_length] at hk
  exact ⟨u, v, c1, rfl, hp, by simpa using hk.symm⟩

theorem Regex.matchHere_complete (re : Regex) (u v : Str) (c1 : Caps)
    (hp : re.Parses u [] c1) : (re.matchHere (u ++ v)).isSome = true := by
  unfold Regex.matchHere
  exact Regex.run_complete re u v [] c1 _ hp (fun _ => rfl)

theorem Regex.find_of_matchHere (re : Regex) (s : Str) (caps : Caps)
    (h : re.matchHere s = some caps) : re.find s = some caps := by
  cases s with
  | nil => simpa [Regex.find] using h
  | cons c cs => simp [Regex.find, h]

theorem Regex.find_sound (re : Regex) (s : Str) (caps : Caps) (h : re.find s = some caps) :
    ∃ pre u post c1, s = pre ++ u ++ post ∧ re.Parses u [] c1 ∧ caps = (0, u) :: c1 := by
  induction s with
  | nil =>
    obtain ⟨u, v, c1, huv, hp, hc⟩ := Regex.matchHere_sound re [] caps (by simpa [Regex.find] using h)
    exact ⟨[], u, v, c1, by simpa using huv, hp, hc⟩
  | cons c cs ih =>
    unfold Regex.find at h
    cases hm : re.matchHere (c :: cs) with
    | some caps1 =>
      rw [hm] at h
      have hcc : caps1 = caps := by simpa using h
      subst hcc
      obtain ⟨u, v, c1, huv, hp, hc⟩ := Regex.matchHere_sound re (c :: cs) caps1 hm
      exact ⟨[], u, v, c1, by simpa using huv, hp, hc⟩
    | none =>
      rw [hm] at h
      obtain ⟨pre, u, post, c1, hs, hp, hc⟩ := ih h
      exact ⟨c :: pre, u, post, c1, by simp [hs], hp, hc⟩

theorem Regex.find_complete (re : Regex) (pre u post : Str) (c1 : Caps)
    (hp : re.Parses u [] c1) : (re.find (pre ++ u ++ post)).isSome = true := by
  induction pre with
  | nil =>
    have hm := Regex.matchHere_complete re u post c1 hp
    obtain ⟨caps, hcaps⟩ := Option.isSome_iff_exists.1 hm
    simp [Regex.find_of_matchHere re _ caps hcaps]
  | cons c pre ih =>
    show (re.find (c :: (pre ++ u ++ post))).isSome = true
    unfold Regex.find
    cases hm : re.matchHere (c :: (pre ++ u ++ post)) with
    | some caps1 => rfl
    | none => exact ih

/-! ### The release pattern -/

theorem notChar_all (c : Char) (u : Str) : (∀ x ∈ u, notChar c x = true) ↔ c ∉ u := by
  constructor
  · intro h hc
    have := h c hc
    simp [notChar] at this
  · intro h x hx
    simp only [notChar, bne_iff_ne, ne_eq]
    rintro rfl
    exact h hx

theorem binaryNameExpression_parses (u : Str) (c1 : Caps) :
    binaryNameExpression.Parses u [] c1 ↔
      ∃ type maj min pat os arch, IsReleaseFields type maj min pat os arch ∧
        u = releaseFileName type maj min pat os arch ∧
        c1 = releaseCaps type maj min pat os arch := by
  constructor
  · intro h
    simp only [binaryNameExpression, Regex.Parses] at h
    obtain ⟨u1, r1, c, rfl, ⟨_, ⟨rfl, rfl⟩, rfl⟩, h⟩ := h
    obtain ⟨type, r2, c, rfl, ⟨_, ⟨htype, rfl⟩, rfl⟩, h⟩ := h
    obtain ⟨_, r3, c, rfl, ⟨rfl, rfl⟩, h⟩ := h
    obtain ⟨ver, r4, c, rfl, ⟨_, hver, rfl⟩, h⟩ := h
    obtain ⟨maj, v1, c, rfl, ⟨hmaj0, hmaj, rfl⟩, hver⟩ := hver
    obtain ⟨_, v2, c, rfl, ⟨rfl, rfl⟩, hver⟩ := hver
    obtain ⟨min, v3, c, rfl, ⟨hmin0, hmin, rfl⟩, hver⟩ := hver
    obtain ⟨_, pat, c, rfl, ⟨rfl, rfl⟩, hpat0, hpat, rfl⟩ := hver
    obtain ⟨_, r5, c, rfl, ⟨rfl, rfl⟩, h⟩ := h
    obtain ⟨os, r6, c, rfl, ⟨_, ⟨hos, rfl⟩, rfl⟩, h⟩ := h
    obtain ⟨_, r7, c, rfl, ⟨rfl, rfl⟩, h⟩ := h
    obtain ⟨arch, r8, c, rfl, ⟨_, ⟨harch, rfl⟩, rfl⟩, _, ⟨rfl, rfl⟩, rfl⟩ := h
    refine ⟨type, maj, min, pat, os, arch,
      ⟨(notChar_all _ _).1 htype, ⟨hmaj0, hmaj⟩, ⟨hmin0, hmin⟩, ⟨hpat0, hpat⟩,
        (notChar_all _ _).1 hos, (notChar_all _ _).1 harch⟩, ?_, ?_⟩
    · simp [releaseFileName, semver]
    · simp [releaseCaps, semver]
  · rintro ⟨type, maj, min, pat, os, arch, ⟨htype, hmaj, hmin, hpat, hos, harch⟩, rfl, rfl⟩
    simp only [binaryNameExpression, Regex.Parses]
    refine ⟨_, _, _, rfl, ⟨_, ⟨rfl, rfl⟩, rfl⟩, ?_⟩
    refine ⟨type, _, _, rfl, ⟨_, ⟨(notChar_all _ _).2 htype, rfl⟩, rfl⟩, ?_⟩
    refine ⟨['_'], _, _, rfl, ⟨rfl, rfl⟩, ?_⟩
    refine ⟨semver maj min pat, _, _, rfl,
      ⟨[(2, type), (1, "terraform-provider-".toList)], ?_, rfl⟩, ?_⟩
    · refine ⟨maj, _, _, rfl, ⟨hmaj.1, hmaj.2, rfl⟩, ?_⟩
      refine ⟨['.'], _, _, rfl, ⟨rfl, rfl⟩, ?_⟩
      refine ⟨min, _, _, rfl, ⟨hmin.1, hmin.2, rfl⟩, ?_⟩
      exact ⟨['.'], pat, _, rfl, ⟨rfl, rfl⟩, hpat.1, hpat.2, rfl⟩
    refine ⟨['_'], _, _, rfl, ⟨rfl, rfl⟩, ?_⟩
    refine ⟨os, _, _, rfl, ⟨_, ⟨(notChar_all _ _).2 hos, rfl⟩, rfl⟩, ?_⟩
    refine ⟨['_'], _, _, rfl, ⟨rfl, rfl⟩, ?_⟩
    exact ⟨arch, _, _, rfl, ⟨_, ⟨(notChar_all _ _).2 harch, rfl⟩, rfl⟩, _, ⟨rfl, rfl⟩, rfl⟩

theorem append_cons_inj {c : Char} {u u1 r r1 : Str} (hu : c ∉ u) (hu1 : c ∉ u1)
    (h : u ++ c :: r = u1 ++ c :: r1) : u = u1 ∧ r = r1 := by
  induction u generalizing u1 with
  | nil =>
    cases u1 with
    | nil => simpa using h
    | cons b u1 =>
      simp only [List.nil_append, List.cons_append, List.cons.injEq] at h
      exact absurd (h.1 ▸ List.mem_cons_self _ _) hu1
  | cons a u ih =>
    cases u1 with
    | nil =>
      simp only [List.nil_append, List.cons_append, List.cons.injEq] at h
      exact absurd (h.1 ▸ List.mem_cons_self _ _) hu
    | cons b u1 =>
      simp only [List.cons_append, List.cons.injEq] at h
      obtain ⟨h1, h2⟩ := ih (fun hm => hu (List.mem_cons_of_mem _ hm))
        (fun hm => hu1 (List.mem_cons_of_mem _ hm)) h.2
      exact ⟨by rw [h.1, h1], h2⟩

theorem IsDigits.not_mem {d : Str} (hd : IsDigits d) {c : Char} (hc : digit c = false) :
    c ∉ d := by
  intro hm
  rw [hd.2 c hm] at hc
  exact absurd hc (by simp)

theorem releaseFileName_inj {type maj min pat os arch type1 maj1 min1 pat1 os1 arch1 v : Str}
    (hf : IsReleaseFields type maj min pat os arch)
    (hf1 : IsReleaseFields type1 maj1 min1 pat1 os1 arch1)
    (h : releaseFileName type maj min pat os arch =
      releaseFileName type1 maj1 min1 pat1 os1 arch1 ++ v) :
    type = type1 ∧ maj = maj1 ∧ min = min1 ∧ pat = pat1 ∧ os = os1 ∧ arch = arch1 ∧ v = [] := by
  obtain ⟨htype, hmaj, hmin, hpat, hos, harch⟩ := hf
  obtain ⟨htype1, hmaj1, hmin1, hpat1, hos1, harch1⟩ := hf1
  simp only [releaseFileName, semver, List.append_assoc, List.cons_append] at h
  have h := List.append_cancel_left h
  obtain ⟨e1, h⟩ := append_cons_inj htype htype1 h
  obtain ⟨e2, h⟩ := append_cons_inj (hmaj.not_mem (by decide)) (hmaj1.not_mem (by decide)) h
  obtain ⟨e3, h⟩ := append_cons_inj (hmin.not_mem (by decide)) (hmin1.not_mem (by decide)) h
  obtain ⟨e4, h⟩ := append_cons_inj (hpat.not_mem (by decide)) (hpat1.not_mem (by decide)) h
  obtain ⟨e5, h⟩ := append_cons_inj hos hos1 h
  have h : arch ++ '.' :: "zip".toList = arch1 ++ '.' :: ("zip".toList ++ v) := h
  obtain ⟨e6, h⟩ := append_cons_inj harch harch1 h
  refine ⟨e1, e2, e3, e4, e5, e6, ?_⟩
  have h2 : "zip".toList ++ [] = "zip".toList ++ v := by simpa using h
  exact (List.append_cancel_left h2).symm

theorem find_releaseFileName {type maj min pat os arch : Str}
    (hf : IsReleaseFields type maj min pat os arch) :
    binaryNameExpression.find (releaseFileName type maj min pat os arch) =
      some ((0, releaseFileName type maj min pat os arch) ::
        releaseCaps type maj min pat os arch) := by
  have hp := (binaryNameExpression_parses _ _).2 ⟨type, maj, min, pat, os, arch, hf, rfl, rfl⟩
  have hm := Regex.matchHere_complete binaryNameExpression _ [] _ hp
  rw [List.append_nil] at hm
  obtain ⟨caps, hcaps⟩ := Option.isSome_iff_exists.1 hm
  rw [Regex.find_of_matchHere _ _ caps hcaps]
  obtain ⟨u, v, c1, huv, hp1, hc⟩ := Regex.matchHere_sound _ _ caps hcaps
  obtain ⟨type1, maj1, min1, pat1, os1, arch1, hf1, rfl, rfl⟩ :=
    (binaryNameExpression_parses _ _).1 hp1
  obtain ⟨rfl, rfl, rfl, rfl, rfl, rfl, rfl⟩ := releaseFileName_inj hf hf1 huv
  rw [hc]

theorem FindStringSubmatch_releaseFileName {type maj min pat os arch : Str}
    (hf : IsReleaseFields type maj min pat os arch) :
    binaryNameExpression.FindStringSubmatch (releaseFileName type maj min pat os arch) =
      some [releaseFileName type maj min pat os arch, "terraform-provider-".toList, type,
        semver maj min pat, os, arch, ".zip".toList] := by
  unfold Regex.FindStringSubmatch
  rw [find_releaseFileName hf]
  rfl

theorem containsReleaseName_iff (s : Str) :
    ContainsReleaseName s ↔ (binaryNameExpression.find s).isSome = true := by
  constructor
  · rintro ⟨pre, u, post, ⟨type, maj, min, pat, os, arch, hf, rfl⟩, rfl⟩
    exact Regex.find_complete _ pre _ post _
      ((binaryNameExpression_parses _ _).2 ⟨type, maj, min, pat, os, arch, hf, rfl, rfl⟩)
  · intro h
    obtain ⟨caps, hcaps⟩ := Option.isSome_iff_exists.1 h
    obtain ⟨pre, u, post, c1, hs, hp, _⟩ := Regex.find_sound _ _ caps hcaps
    obtain ⟨type, maj, min, pat, os, arch, hf, rfl, _⟩ := (binaryNameExpression_parses _ _).1 hp
    exact ⟨pre, _, post, ⟨type, maj, min, pat, os, arch, hf, rfl⟩, hs⟩

theorem IsReleaseName.contains {s : Str} (h : IsReleaseName s) : ContainsReleaseName s :=
  ⟨[], s, [], h, by simp⟩

theorem FindStringSubmatch_eq_none_iff (s : Str) :
    binaryNameExpression.FindStringSubmatch s = none ↔ ¬ ContainsReleaseName s := by
  rw [containsReleaseName_iff]
  unfold Regex.FindStringSubmatch
  cases binaryNameExpression.find s <;> simp

/-! ### MakeFromFileName -/

theorem assignFields_subExpressionNames (m : BinaryMetaData) (a0 a1 a2 a3 a4 a5 a6 : Str) :
    assignFields m subExpressionNames [a0, a1, a2, a3, a4, a5, a6] =
      { m with TypeName := a2, Version := a3, Os := a4, Arch := a5 } := rfl

theorem MakeFromFileName_nil_iff (baseURL filePath : Str) (shasums : StrMap)
    (protocols : List Str) :
    MakeFromFileName baseURL filePath shasums protocols = .ok none ↔
      ¬ ContainsReleaseName (pathBase filePath) := by
  rw [← FindStringSubmatch_eq_none_iff]
  unfold MakeFromFileName
  cases hms : binaryNameExpression.FindStringSubmatch (pathBase filePath) with
  | none => simp [hms]
  | some ms => cases hsum : shasums (pathBase filePath) <;> simp [hms, hsum]

theorem MakeFromFileName_ok_some {baseURL filePath : Str} {shasums : StrMap}
    {protocols : List Str} {m : BinaryMetaData}
    (h : MakeFromFileName baseURL filePath shasums protocols = .ok (some m)) :
    ∃ ms sum, binaryNameExpression.FindStringSubmatch (pathBase filePath) = some ms ∧
      shasums (pathBase filePath) = some sum ∧
      m.TypeName = (assignFields BinaryMetaData.zero subExpressionNames ms).TypeName ∧
      m.Version = (assignFields BinaryMetaData.zero subExpressionNames ms).Version ∧
      m.Os = (assignFields BinaryMetaData.zero subExpressionNames ms).Os ∧
      m.Arch = (assignFields BinaryMetaData.zero subExpressionNames ms).Arch ∧
      m.Filename = pathBase filePath ∧
      m.Protocols = protocols ∧
      m.Shasum = sum ∧
      m.SigningKeys = [] ∧
      m.DownloadURL = baseURL ++ ['/'] ++ pathBase filePath ∧
      m.ShasumsURL = baseURL ++ "/terraform-provider-".toList ++ m.TypeName ++ ['_']
        ++ m.Version ++ "_SHA256SUMS".toList ∧
      m.ShasumsSignatureURL = baseURL ++ "/terraform-provider-".toList ++ m.TypeName ++ ['_']
        ++ m.Version ++ "_SHA256SUMS.sig".toList := by
  unfold MakeFromFileName at h
  cases hms : binaryNameExpression.FindStringSubmatch (pathBase filePath) with
  | none => simp [hms] at h
  | some ms =>
    cases hsum : shasums (pathBase filePath) with
    | none => simp [hms, hsum] at h
    | some sum =>
      simp only [hms, hsum, Run.ok.injEq, Option.some.injEq] at h
      subst h
      exact ⟨ms, sum, rfl, rfl, rfl, rfl, rfl, rfl, rfl, rfl, rfl, rfl, rfl, rfl, rfl⟩

/-- C1: for a path whose base name is exactly
`terraform-provider-<type>_<MAJOR>.<MINOR>.<PATCH>_<os>_<arch>.zip` (type and os without
underscore, arch without dot, numeric components non-empty digit strings) and is a key of
the checksum index, `MakeFromFileName` returns a record whose TypeName, Version, Os and Arch
are `<type>`, `<MAJOR>.<MINOR>.<PATCH>`, `<os>`, `<arch>` and whose Filename is the base
name of the path. -/
theorem MakeFromFileName_release_fields (baseURL filePath : Str) (shasums : StrMap)
    (protocols : List Str) (type maj min pat os arch sum : Str)
    (hf : IsReleaseFields type maj min pat os arch)
    (hbase : pathBase filePath = releaseFileName type maj min pat os arch)
    (hsum : shasums (pathBase filePath) = some sum) :
    ∃ m, MakeFromFileName baseURL filePath shasums protocols = .ok (some m) ∧
      m.TypeName = type ∧ m.Version = maj ++ ['.'] ++ min ++ ['.'] ++ pat ∧
      m.Os = os ∧ m.Arch = arch ∧ m.Filename = pathBase filePath := by
  unfold MakeFromFileName
  simp only [hsum]
  rw [hbase, FindStringSubmatch_releaseFileName hf]
  refine ⟨_, rfl, ?_, ?_, ?_, ?_, rfl⟩
  · simp [assignFields_subExpressionNames]
  · simp [assignFields_subExpressionNames, semver]
  · simp [assignFields_subExpressionNames]
  · simp [assignFields_subExpressionNames]

theorem MakeFromFileName_release_fields_witness :
    ∃ m, MakeFromFileName "https://example.com/dl".toList
        "dist/terraform-provider-foo_1.0.0_linux_amd64.zip".toList
        (singleIndex "terraform-provider-foo_1.0.0_linux_amd64.zip".toList "abc123".toList)
        ["5.0".toList] = .ok (some m) ∧
      m.TypeName = "foo".toList ∧ m.Version = "1.0.0".toList ∧
      m.Os = "linux".toList ∧ m.Arch = "amd64".toList ∧
      m.Filename = "terraform-provider-foo_1.0.0_linux_amd64.zip".toList :=
  MakeFromFileName_release_fields "https://example.com/dl".toList
    "dist/terraform-provider-foo_1.0.0_linux_amd64.zip".toList
    (singleIndex "terraform-provider-foo_1.0.0_linux_amd64.zip".toList "abc123".toList)
    ["5.0".toList] "foo".toList "1".toList "0".toList "0".toList "linux".toList "amd64".toList
    "abc123".toList (by decide) (by decide) (by decide)

theorem not_isReleaseName_signature_file :
    ¬ IsReleaseName (pathBase "terraform-provider-foo_1.0.0_linux_amd64.zip.sig".toList) := by
  rintro ⟨type, maj, min, pat, os, arch, hf, hs⟩
  have h1 := FindStringSubmatch_releaseFileName hf
  rw [← hs] at h1
  have h2 : binaryNameExpression.FindStringSubmatch
      (pathBase "terraform-provider-foo_1.0.0_linux_amd64.zip.sig".toList) =
      some ["terraform-provider-foo_1.0.0_linux_amd64.zip".toList,
        "terraform-provider-".toList, "foo".toList, "1.0.0".toList, "linux".toList,
        "amd64".toList, ".zip".toList] := by decide
  rw [h2] at h1
  simp only [Option.some.injEq, List.cons.injEq] at h1
  exact absurd h1.1 (by decide)

/-- C2, the code at the failing input: the base name
`terraform-provider-foo_1.0.0_linux_amd64.zip.sig` is not a release file name, yet the
pattern, which has no `^` and `$`, matches inside it.  With the name absent from the
checksum index `MakeFromFileName` ends the process; with the name in the index it returns
a record of foo 1.0.0 linux amd64 whose file name and download URL are those of the
signature file. -/
theorem MakeFromFileName_signature_file :
    ¬ IsReleaseName (pathBase "terraform-provider-foo_1.0.0_linux_amd64.zip.sig".toList) ∧
    MakeFromFileName "https://example.com/dl".toList
        "terraform-provider-foo_1.0.0_linux_amd64.zip.sig".toList emptyIndex ["5.0".toList] =
      .fatal (.missingChecksum "terraform-provider-foo_1.0.0_linux_amd64.zip.sig".toList) ∧
    MakeFromFileName "https://example.com/dl".toList
        "terraform-provider-foo_1.0.0_linux_amd64.zip.sig".toList
        (singleIndex "terraform-provider-foo_1.0.0_linux_amd64.zip.sig".toList "abc123".toList)
        ["5.0".toList] =
      .ok (some { exampleRecord ["5.0".toList] "abc123".toList with
        Filename := "terraform-provider-foo_1.0.0_linux_amd64.zip.sig".toList
        DownloadURL :=
          "https://example.com/dl/terraform-provider-foo_1.0.0_linux_amd64.zip.sig".toList }) :=
  ⟨not_isReleaseName_signature_file, by decide, by decide⟩

/-- What the pattern does give without anchors: for every file path whose base name
contains no substring of the form
`terraform-provider-<type>_<MAJOR>.<MINOR>.<PATCH>_<os>_<arch>.zip`, `MakeFromFileName`
returns no metadata and does not end the process, whatever the checksum index contains. -/
theorem MakeFromFileName_no_release_name (baseURL filePath : Str) (shasums : StrMap)
    (protocols : List Str) (h : ¬ ContainsReleaseName (pathBase filePath)) :
    MakeFromFileName baseURL filePath shasums protocols = .ok none :=
  (MakeFromFileName_nil_iff baseURL filePath shasums protocols).2 h

theorem MakeFromFileName_no_release_name_witness :
    ¬ ContainsReleaseName (pathBase "dist/terraform-provider-foo_1.0.0_SHA256SUMS.sig".toList) ∧
    MakeFromFileName "https://example.com/dl".toList
      "dist/terraform-provider-foo_1.0.0_SHA256SUMS.sig".toList emptyIndex ["5.0".toList]
      = .ok none :=
  ⟨by rw [containsReleaseName_iff]; decide,
   MakeFromFileName_no_release_name _ _ _ _ (by rw [containsReleaseName_iff]; decide)⟩

/-- C3: for every base URL, protocols list, checksum index and file path whose base name
matches the release pattern (exactly, or somewhere inside it, as the unanchored pattern
does), `MakeFromFileName` ends the process if and only if the exact base name is not a key
of the checksum index, the failure then being the missing checksum of that name; when it
is a key, the returned record carries the index value as Shasum. -/
theorem MakeFromFileName_checksum (baseURL filePath : Str) (shasums : StrMap)
    (protocols : List Str) (h : ContainsReleaseName (pathBase filePath)) :
    ((∃ f, MakeFromFileName baseURL filePath shasums protocols = .fatal f) ↔
      shasums (pathBase filePath) = none) ∧
    (shasums (pathBase filePath) = none →
      MakeFromFileName baseURL filePath shasums protocols =
        .fatal (.missingChecksum (pathBase filePath))) ∧
    (∀ sum, shasums (pathBase filePath) = some sum →
      ∃ m, MakeFromFileName baseURL filePath shasums protocols = .ok (some m) ∧
        m.Shasum = sum) := by
  have hms : ∃ ms, binaryNameExpression.FindStringSubmatch (pathBase filePath) = some ms := by
    cases hq : binaryNameExpression.FindStringSubmatch (pathBase filePath) with
    | none => exact absurd h ((FindStringSubmatch_eq_none_iff _).1 hq)
    | some ms => exact ⟨ms, rfl⟩
  obtain ⟨ms, hms⟩ := hms
  unfold MakeFromFileName
  cases hsum : shasums (pathBase filePath) with
  | none => simp [hms, hsum]
  | some sum => simp [hms, hsum]

theorem MakeFromFileName_checksum_witness :
    ContainsReleaseName (pathBase "dist/terraform-provider-foo_1.0.0_linux_amd64.zip".toList) ∧
    (∃ m, MakeFromFileName "https://example.com/dl".toList
        "dist/terraform-provider-foo_1.0.0_linux_amd64.zip".toList
        (singleIndex "terraform-provider-foo_1.0.0_linux_amd64.zip".toList "abc123".toList)
        ["5.0".toList] = .ok (some m) ∧ m.Shasum = "abc123".toList) ∧
    MakeFromFileName "https://example.com/dl".toList
        "dist/terraform-provider-foo_1.0.0_linux_amd64.zip".toList emptyIndex ["5.0".toList] =
      .fatal (.missingChecksum "terraform-provider-foo_1.0.0_linux_amd64.zip".toList) :=
  ⟨by rw [containsReleaseName_iff]; decide,
   (MakeFromFileName_checksum _ _ _ _ (by rw [containsReleaseName_iff]; decide)).2.2 _
     (by decide),
   (MakeFromFileName_checksum "https://example.com/dl".toList
     "dist/terraform-provider-foo_1.0.0_linux_amd64.zip".toList emptyIndex ["5.0".toList]
     (by rw [containsReleaseName_iff]; decide)).2.1 (by decide)⟩

/-- C4: for every record returned by `MakeFromFileName`, DownloadURL is
`baseURL + "/" + base name`, ShasumsURL is
`baseURL + "/terraform-provider-" + TypeName + "_" + Version + "_SHA256SUMS"` and
ShasumsSignatureURL is ShasumsURL followed by `.sig`; two calls with the same base URL and
paths of the same base name return the same three URLs, whatever the checksum indexes,
protocol lists and directory parts are. -/
theorem MakeFromFileName_urls (baseURL p1 p2 : Str) (s1 s2 : StrMap) (pr1 pr2 : List Str)
    (m1 m2 : BinaryMetaData)
    (h1 : MakeFromFileName baseURL p1 s1 pr1 = .ok (some m1))
    (h2 : MakeFromFileName baseURL p2 s2 pr2 = .ok (some m2))
    (hb : pathBase p1 = pathBase p2) :
    m1.DownloadURL = baseURL ++ "/".toList ++ pathBase p1 ∧
    m1.ShasumsURL = baseURL ++ "/terraform-provider-".toList ++ m1.TypeName ++ "_".toList
      ++ m1.Version ++ "_SHA256SUMS".toList ∧
    m1.ShasumsSignatureURL = m1.ShasumsURL ++ ".sig".toList ∧
    m2.DownloadURL = m1.DownloadURL ∧ m2.ShasumsURL = m1.ShasumsURL ∧
    m2.ShasumsSignatureURL = m1.ShasumsSignatureURL := by
  obtain ⟨ms1, sum1, hms1, -, ht1, hv1, -, -, -, -, -, -, hd1, hs1, hg1⟩ :=
    MakeFromFileName_ok_some h1
  obtain ⟨ms2, sum2, hms2, -, ht2, hv2, -, -, -, -, -, -, hd2, hs2, hg2⟩ :=
    MakeFromFileName_ok_some h2
  rw [← hb, hms1] at hms2
  have hms : ms1 = ms2 := by simpa using hms2
  subst hms
  have ht : m2.TypeName = m1.TypeName := by rw [ht1, ht2]
  have hv : m2.Version = m1.Version := by rw [hv1, hv2]
  refine ⟨hd1, hs1, ?_, ?_, ?_, ?_⟩
  · rw [hg1, hs1]; simp
  · rw [hd1, hd2, hb]
  · rw [hs1, hs2, ht, hv]
  · rw [hg1, hg2, ht, hv]

theorem MakeFromFileName_urls_witness :
    MakeFromFileName "https://example.com/dl".toList
      "dist/terraform-provider-foo_1.0.0_linux_amd64.zip".toList
      (singleIndex "terraform-provider-foo_1.0.0_linux_amd64.zip".toList "abc123".toList)
      ["5.0".toList] = .ok (some (exampleRecord ["5.0".toList] "abc123".toList)) ∧
    (exampleRecord ["5.0".toList] "abc123".toList).DownloadURL =
      "https://example.com/dl/terraform-provider-foo_1.0.0_linux_amd64.zip".toList ∧
    (exampleRecord ["6.0".toList] "def456".toList).ShasumsURL =
      (exampleRecord ["5.0".toList] "abc123".toList).ShasumsURL :=
  ⟨by decide,
   (MakeFromFileName_urls "https://example.com/dl".toList
      "dist/terraform-provider-foo_1.0.0_linux_amd64.zip".toList
      "/srv/releases/terraform-provider-foo_1.0.0_linux_amd64.zip".toList
      (singleIndex "terraform-provider-foo_1.0.0_linux_amd64.zip".toList "abc123".toList)
      (singleIndex "terraform-provider-foo_1.0.0_linux_amd64.zip".toList "def456".toList)
      ["5.0".toList] ["6.0".toList]
      (exampleRecord ["5.0".toList] "abc123".toList)
      (exampleRecord ["6.0".toList] "def456".toList)
      (by decide) (by decide) (by decide)).1,
   (MakeFromFileName_urls "https://example.com/dl".toList
      "dist/terraform-provider-foo_1.0.0_linux_amd64.zip".toList
      "/srv/releases/terraform-provider-foo_1.0.0_linux_amd64.zip".toList
      (singleIndex "terraform-provider-foo_1.0.0_linux_amd64.zip".toList "abc123".toList)
      (singleIndex "terraform-provider-foo_1.0.0_linux_amd64.zip".toList "def456".toList)
      ["5.0".toList] ["6.0".toList]
      (exampleRecord ["5.0".toList] "abc123".toList)
      (exampleRecord ["6.0".toList] "def456".toList)
      (by decide) (by decide) (by decide)).2.2.2.2.1⟩

/-! ### Merge -/

theorem ProviderVersions.has_append (p : ProviderVersions) (e : ProviderVersion) (v : Str)
    (h : p.has v = true) : ({ Versions := p.Versions ++ [e] } : ProviderVersions).has v = true := by
  simp only [ProviderVersions.has, List.any_append, Bool.or_eq_true] at h ⊢
  exact Or.inl h

theorem ProviderVersions.merge_fold (l : List ProviderVersion) (acc : ProviderVersions) :
    ∃ extra, (l.foldl (fun acc e =>
        if acc.has e.Version then acc else { Versions := acc.Versions ++ [e] }) acc).Versions
        = acc.Versions ++ extra ∧ ∀ e ∈ extra, acc.has e.Version = false := by
  induction l generalizing acc with
  | nil => exact ⟨[], by simp, by simp⟩
  | cons e l ih =>
    simp only [List.foldl_cons]
    by_cases h : acc.has e.Version = true
    · rw [if_pos h]
      exact ih acc
    · rw [if_neg h]
      obtain ⟨extra, h1, h2⟩ := ih { Versions := acc.Versions ++ [e] }
      refine ⟨e :: extra, by rw [h1]; simp, ?_⟩
      intro x hx
      rcases List.mem_cons.1 hx with rfl | hx
      · simpa using h
      · cases hax : acc.has x.Version with
        | false => rfl
        | true =>
          have := h2 x hx
          rw [ProviderVersions.has_append acc e _ hax] at this
          exact absurd this (by simp)

theorem ProviderVersions.merge_versions (a b : ProviderVersions) :
    ∃ extra, (a.Merge b).Versions = a.Versions ++ extra ∧
      ∀ e ∈ extra, a.has e.Version = false :=
  ProviderVersions.merge_fold b.Versions a

theorem filter_version_of_nodup (l : List ProviderVersion) (e : ProviderVersion)
    (hn : (l.map (fun x => x.Version)).Nodup) (he : e ∈ l) :
    l.filter (fun x => decide (x.Version = e.Version)) = [e] := by
  induction l with
  | nil => exact absurd he (by simp)
  | cons a l ih =>
    simp only [List.map_cons, List.nodup_cons] at hn
    rcases List.mem_cons.1 he with rfl | he
    · have hnone : l.filter (fun x => decide (x.Version = e.Version)) = [] := by
        rw [List.filter_eq_nil_iff]
        intro x hx hxe
        simp only [decide_eq_true_eq] at hxe
        exact hn.1 (hxe ▸ List.mem_map_of_mem (fun x => x.Version) hx)
      simp [List.filter_cons, hnone]
    · have hae : a.Version ≠ e.Version := by
        intro h
        exact hn.1 (h ▸ List.mem_map_of_mem (fun x => x.Version) he)
      simp [List.filter_cons, hae, ih hn.2 he]

theorem ProviderVersions.merge_fold_wellFormed (l : List ProviderVersion)
    (acc : ProviderVersions) (h : acc.WellFormed) :
    (l.foldl (fun acc e =>
      if acc.has e.Version then acc else { Versions := acc.Versions ++ [e] }) acc).WellFormed := by
  induction l generalizing acc with
  | nil => exact h
  | cons e l ih =>
    rw [List.foldl_cons]
    by_cases hh : acc.has e.Version = true
    · rw [if_pos hh]; exact ih acc h
    · rw [if_neg hh]
      apply ih
      unfold ProviderVersions.WellFormed at h ⊢
      simp only [List.map_append, List.map_cons, List.map_nil]
      refine List.Nodup.append h (List.nodup_singleton _) ?_
      intro v hv hv1
      rw [List.mem_singleton.1 hv1] at hv
      obtain ⟨x, hx, hxe⟩ := List.mem_map.1 hv
      apply hh
      simp only [ProviderVersions.has, List.any_eq_true, decide_eq_true_eq]
      exact ⟨x, hx, hxe⟩

/-- The merge keeps the invariant of the aggregate: when each version appears at most once
in the existing aggregate, so it does in the merged one. -/
theorem ProviderVersions.Merge_wellFormed (a b : ProviderVersions) (h : a.WellFormed) :
    (a.Merge b).WellFormed :=
  ProviderVersions.merge_fold_wellFormed b.Versions a h

/-- C6, as stated, fails: the persisted document is decoded as it is, and when it holds
version 1.0.0 twice the merge with an incoming aggregate that has another entry for 1.0.0
holds it twice as well. -/
theorem Merge_keeps_existing_counterexample :
    ¬ ∀ (A B : ProviderVersions) (d1 d2 : ProviderVersion),
      d1 ∈ A.Versions → d2 ∈ B.Versions → d2.Version = d1.Version → d2 ≠ d1 →
        (A.Merge B).Versions.filter (fun e => decide (e.Version = d1.Version)) = [d1] := by
  intro h
  have h1 := h exampleDuplicated exampleIncoming
    { Version := "1.0.0".toList, Protocols := ["5.0".toList],
      Platforms := [{ Os := "linux".toList, Arch := "amd64".toList }] }
    { Version := "1.0.0".toList, Protocols := ["6.0".toList],
      Platforms := [{ Os := "darwin".toList, Arch := "arm64".toList }] }
    (by decide) (by decide) (by decide) (by decide)
  revert h1
  decide

/-- C6 (amended): when the existing aggregate `A` has exactly one entry for a version, the
entry `d1`, then `A.Merge B` has exactly one entry for that version and it is `d1`,
whatever the incoming aggregate `B` holds for it. -/
theorem Merge_keeps_existing (A B : ProviderVersions) (d1 : ProviderVersion)
    (hA : A.Versions.filter (fun e => decide (e.Version = d1.Version)) = [d1]) :
    (A.Merge B).Versions.filter (fun e => decide (e.Version = d1.Version)) = [d1] := by
  obtain ⟨extra, hm, hex⟩ := ProviderVersions.merge_versions A B
  have h1 : d1 ∈ A.Versions := by
    have : d1 ∈ A.Versions.filter (fun e => decide (e.Version = d1.Version)) := by
      rw [hA]; exact List.mem_singleton_self _
    exact (List.mem_filter.1 this).1
  rw [hm, List.filter_append, hA]
  have hnone : extra.filter (fun e => decide (e.Version = d1.Version)) = [] := by
    rw [List.filter_eq_nil_iff]
    intro x hx hxe
    simp only [decide_eq_true_eq] at hxe
    have hhas := hex x hx
    have : A.has x.Version = true := by
      simp only [ProviderVersions.has, List.any_eq_true, decide_eq_true_eq]
      exact ⟨d1, h1, hxe.symm⟩
    rw [this] at hhas
    exact absurd hhas (by simp)
  rw [hnone, List.append_nil]

/-! ### Paths -/

theorem splitSlash_ne_nil (s : Str) : splitSlash s ≠ [] := by
  cases s with
  | nil => simp [splitSlash]
  | cons c s =>
    unfold splitSlash
    by_cases h : c = '/'
    · simp [h]
    · rw [if_neg h]
      cases splitSlash s <;> simp

theorem splitSlash_append_slash (s : Str) : splitSlash (s ++ ['/']) = splitSlash s ++ [[]] := by
  induction s with
  | nil => simp [splitSlash]
  | cons c s ih =>
    show splitSlash (c :: (s ++ ['/'])) = splitSlash (c :: s) ++ [[]]
    unfold splitSlash
    by_cases h : c = '/'
    · simp [h, ih]
    · rw [if_neg h, if_neg h, ih]
      cases hs : splitSlash s with
      | nil => exact absurd hs (splitSlash_ne_nil s)
      | cons x xs => simp

theorem pathJoin_root (p : Str) : pathJoin ["/".toList, p] = pathClean ('/' :: '/' :: p) := by
  have h : (List.map List.length ["/".toList, p]).sum ≠ 0 := by
    simp [String.toList]
  unfold pathJoin
  rw [if_neg h]
  simp [joinStep, String.toList]

theorem pathClean_rooted (q : Str) :
    pathClean ('/' :: q) =
      '/' :: joinSlash ((splitSlash ('/' :: q)).foldl (cleanStep true) []).reverse := by
  simp [pathClean]

theorem cleanStep_nil (rooted : Bool) (out : List Str) : cleanStep rooted out [] = out := by
  simp [cleanStep]

theorem pathClean_rooted_append_slash (q : Str) :
    pathClean ('/' :: (q ++ ['/'])) = pathClean ('/' :: q) := by
  rw [pathClean_rooted, pathClean_rooted]
  have h : splitSlash ('/' :: (q ++ ['/'])) = splitSlash ('/' :: q) ++ [[]] :=
    splitSlash_append_slash ('/' :: q)
  rw [h, List.foldl_append]
  simp [cleanStep_nil]

/-- C7: for every `versionsRootPath` the value under `providers.v1` starts with `/` and ends
with `/`, and is the same for the path with a `/` appended; `assertDiscoveryDocument`
either finds a document with the same entries as the one-key map of that value and leaves
everything as it is, or writes exactly that one-key map to `.well-known/terraform.json`
under the output directory, or is refused by the file system (the directory or the file
cannot be created) and writes nothing. -/
theorem assertDiscoveryDocument_shape (outputDir p : Str) (w : World) :
    (pathJoin ["/".toList, p] ++ "/".toList).head? = some '/' ∧
    (pathJoin ["/".toList, p] ++ "/".toList).getLast? = some '/' ∧
    pathJoin ["/".toList, p ++ "/".toList] ++ "/".toList =
      pathJoin ["/".toList, p] ++ "/".toList ∧
    ((mapDeepEqual [("providers.v1".toList, pathJoin ["/".toList, p] ++ "/".toList)]
        (readDiscovery w.fs
          (pathJoin [outputDir, ".well-known".toList, "terraform.json".toList])) = true ∧
      assertDiscoveryDocument outputDir p w = (none, w)) ∨
     (mapDeepEqual [("providers.v1".toList, pathJoin ["/".toList, p] ++ "/".toList)]
        (readDiscovery w.fs
          (pathJoin [outputDir, ".well-known".toList, "terraform.json".toList])) = false ∧
      (assertDiscoveryDocument outputDir p w).1 = none ∧
      (assertDiscoveryDocument outputDir p w).2.log = w.log ++
        [{ path := pathJoin [outputDir, ".well-known".toList, "terraform.json".toList],
           doc := .discovery
             [("providers.v1".toList, pathJoin ["/".toList, p] ++ "/".toList)] }]) ∨
     (mapDeepEqual [("providers.v1".toList, pathJoin ["/".toList, p] ++ "/".toList)]
        (readDiscovery w.fs
          (pathJoin [outputDir, ".well-known".toList, "terraform.json".toList])) = false ∧
      (assertDiscoveryDocument outputDir p w).2.log = w.log ∧
      ((MkdirAll (pathDir (pathJoin [outputDir, ".well-known".toList,
          "terraform.json".toList])) w.fs).2 = false ∨
       createFile (MkdirAll (pathDir (pathJoin [outputDir, ".well-known".toList,
          "terraform.json".toList])) w.fs).1
          (pathKey (pathJoin [outputDir, ".well-known".toList, "terraform.json".toList]))
          (.discovery [("providers.v1".toList, pathJoin ["/".toList, p] ++ "/".toList)])
          = none))) := by
  refine ⟨?_, ?_, ?_, ?_⟩
  · rw [pathJoin_root, pathClean_rooted]; rfl
  · simp [String.toList]
  · rw [pathJoin_root, pathJoin_root]
    have h : '/' :: '/' :: (p ++ "/".toList) = '/' :: (('/' :: p) ++ ['/']) := rfl
    rw [h, pathClean_rooted_append_slash]
  · unfold assertDiscoveryDocument
    simp only []
    cases hq : mapDeepEqual [("providers.v1".toList, pathJoin ["/".toList, p] ++ "/".toList)]
        (readDiscovery w.fs
          (pathJoin [outputDir, ".well-known".toList, "terraform.json".toList])) with
    | true => left; simp
    | false =>
      right
      simp only [Bool.not_false, if_true, true_and]
      rcases hm : MkdirAll (pathDir (pathJoin [outputDir, ".well-known".toList,
          "terraform.json".toList])) w.fs with ⟨fs1, ok⟩
      cases ok with
      | false => right; simp
      | true =>
        simp only [writeJson]
        cases hc : createFile fs1
            (pathKey (pathJoin [outputDir, ".well-known".toList, "terraform.json".toList]))
            (.discovery [("providers.v1".toList, pathJoin ["/".toList, p] ++ "/".toList)]) with
        | none => right; simp
        | some fs2 => left; simp

theorem splitSlash_of_not_mem (x : Str) (h : '/' ∉ x) : splitSlash x = [x] := by
  induction x with
  | nil => rfl
  | cons c x ih =>
    have hc : c ≠ '/' := fun hc => h (hc ▸ List.mem_cons_self _ _)
    unfold splitSlash
    rw [if_neg hc, ih (fun hm => h (List.mem_cons_of_mem _ hm))]

theorem splitSlash_append_cons (x r : Str) (h : '/' ∉ x) :
    splitSlash (x ++ '/' :: r) = x :: splitSlash r := by
  induction x with
  | nil => simp [splitSlash]
  | cons c x ih =>
    have hc : c ≠ '/' := fun hc => h (hc ▸ List.mem_cons_self _ _)
    have ih1 := ih (fun hm => h (List.mem_cons_of_mem _ hm))
    simp only [List.cons_append, splitSlash, hc, ↓reduceIte]
    show (match splitSlash (x ++ '/' :: r) with
      | [] => [[c]]
      | y :: ys => (c :: y) :: ys) = _
    rw [ih1]

theorem splitSlash_joinSlash (es : List Str) (hne : es ≠ []) (h : ∀ e ∈ es, '/' ∉ e) :
    splitSlash (joinSlash es) = es := by
  induction es with
  | nil => exact absurd rfl hne
  | cons x rest ih =>
    cases rest with
    | nil => exact splitSlash_of_not_mem x (h x (List.mem_cons_self _ _))
    | cons y rest =>
      show splitSlash (x ++ '/' :: joinSlash (y :: rest)) = _
      rw [splitSlash_append_cons x _ (h x (List.mem_cons_self _ _)),
        ih (by simp) (fun e he => h e (List.mem_cons_of_mem _ he))]

theorem cleanStep_token (rooted : Bool) (out : List Str) (e : Str) (h : IsToken e) :
    cleanStep rooted out e = e :: out := by
  obtain ⟨h1, _, h3, h4⟩ := h
  simp [cleanStep, h1, h3, h4]

theorem foldl_cleanStep_tokens (rooted : Bool) (es out : List Str)
    (h : ∀ e ∈ es, IsToken e) : es.foldl (cleanStep rooted) out = es.reverse ++ out := by
  induction es generalizing out with
  | nil => rfl
  | cons e es ih =>
    rw [List.foldl_cons, cleanStep_token rooted out e (h e (List.mem_cons_self _ _)),
      ih _ (fun x hx => h x (List.mem_cons_of_mem _ hx))]
    simp

theorem joinSlash_cons_eq (x : Str) (rest : List Str) :
    ∃ tail, joinSlash (x :: rest) = x ++ tail := by
  cases rest with
  | nil => exact ⟨[], by simp [joinSlash]⟩
  | cons y rest => exact ⟨'/' :: joinSlash (y :: rest), rfl⟩

theorem joinSlash_head (es : List Str) (h : IsTokenList es) :
    joinSlash es ≠ [] ∧ (joinSlash es).head? ≠ some '/' := by
  obtain ⟨hne, htok⟩ := h
  cases es with
  | nil => exact absurd rfl hne
  | cons x rest =>
    obtain ⟨tail, ht⟩ := joinSlash_cons_eq x rest
    obtain ⟨h1, h2, _, _⟩ := htok x (List.mem_cons_self _ _)
    rw [ht]
    cases x with
    | nil => exact absurd rfl h1
    | cons c x =>
      refine ⟨by simp, ?_⟩
      simp only [List.cons_append, List.head?_cons, ne_eq, Option.some.injEq]
      intro hc
      exact h2 (hc ▸ List.mem_cons_self _ _)

theorem pathClean_joinSlash (es : List Str) (h : IsTokenList es) :
    pathClean (joinSlash es) = joinSlash es := by
  obtain ⟨hj1, hj2⟩ := joinSlash_head es h
  obtain ⟨hne, htok⟩ := h
  unfold pathClean
  rw [if_neg hj1]
  simp only []
  have hr : (es.foldl (cleanStep (decide ((joinSlash es).head? = some '/'))) []) =
      es.reverse := by
    rw [foldl_cleanStep_tokens _ _ _ htok]; simp
  rw [splitSlash_joinSlash es hne (fun e he => (htok e he).2.1), hr]
  simp [hj2, hne]

theorem joinSlash_append (xs ys : List Str) (hx : xs ≠ []) (hy : ys ≠ []) :
    joinSlash (xs ++ ys) = joinSlash xs ++ '/' :: joinSlash ys := by
  induction xs with
  | nil => exact absurd rfl hx
  | cons x rest ih =>
    cases rest with
    | nil =>
      cases ys with
      | nil => exact absurd rfl hy
      | cons y ys => rfl
    | cons z rest =>
      show x ++ '/' :: joinSlash ((z :: rest) ++ ys) = _
      rw [ih (by simp)]
      simp [joinSlash]

theorem foldl_joinStep_tokens (L : List (List Str)) (acc : List Str) (hacc : IsTokenList acc)
    (hL : ∀ l ∈ L, IsTokenList l) :
    (L.map joinSlash).foldl joinStep (joinSlash acc) = joinSlash (acc ++ L.flatten) := by
  induction L generalizing acc with
  | nil => simp
  | cons l L ih =>
    have hl := hL l (List.mem_cons_self _ _)
    have hne := (joinSlash_head acc hacc).1
    have hstep : joinStep (joinSlash acc) (joinSlash l) = joinSlash (acc ++ l) := by
      rw [joinSlash_append acc l hacc.1 hl.1]
      simp [joinStep, hne]
    have hacc1 : IsTokenList (acc ++ l) := by
      refine ⟨by simp [hacc.1], ?_⟩
      intro e he
      rcases List.mem_append.1 he with he | he
      · exact hacc.2 e he
      · exact hl.2 e he
    rw [List.map_cons, List.foldl_cons, hstep, ih _ hacc1
      (fun x hx => hL x (List.mem_cons_of_mem _ hx))]
    simp

theorem pathJoin_tokens (l : List Str) (L : List (List Str)) (hl : IsTokenList l)
    (hL : ∀ x ∈ L, IsTokenList x) :
    pathJoin ((l :: L).map joinSlash) = joinSlash (l ++ L.flatten) := by
  have hne := (joinSlash_head l hl).1
  have hsum : (List.map List.length ((l :: L).map joinSlash)).sum ≠ 0 := by
    simp only [List.map_cons, List.sum_cons]
    have : 0 < (joinSlash l).length := List.length_pos.2 hne
    omega
  have hfirst : joinStep [] (joinSlash l) = joinSlash l := by
    simp [joinStep, hne]
  have htl : IsTokenList (l ++ L.flatten) := by
    refine ⟨by simp [hl.1], ?_⟩
    intro e he
    rcases List.mem_append.1 he with he | he
    · exact hl.2 e he
    · obtain ⟨x, hx, hex⟩ := List.mem_flatten.1 he
      exact (hL x hx).2 e hex
  unfold pathJoin
  rw [if_neg hsum, List.map_cons, List.foldl_cons, hfirst, foldl_joinStep_tokens L l hl hL,
    pathClean_joinSlash _ htl]

theorem joinSlash_injective (es fs : List Str) (he : IsTokenList es) (hf : IsTokenList fs)
    (h : joinSlash es = joinSlash fs) : es = fs := by
  rw [← splitSlash_joinSlash es he.1 (fun e hm => (he.2 e hm).2.1),
    ← splitSlash_joinSlash fs hf.1 (fun e hm => (hf.2 e hm).2.1), h]

/-! ### The layout of the output tree -/

theorem isToken_registry : IsToken "registry".toList := by decide
theorem isToken_v1 : IsToken "v1".toList := by decide
theorem isToken_providers : IsToken "providers".toList := by decide
theorem isToken_download : IsToken "download".toList := by decide
theorem isToken_versions : IsToken "versions".toList := by decide

theorem isTokenList_providerTokens (ns : Str) (hns : IsToken ns) :
    IsTokenList (providerTokens ns) := by
  refine ⟨by simp [providerTokens], ?_⟩
  intro e he
  simp only [providerTokens, List.mem_cons, List.mem_singleton, List.not_mem_nil,
    or_false] at he
  rcases he with rfl | rfl | rfl | rfl | rfl
  · exact isToken_registry
  · exact isToken_registry
  · exact isToken_v1
  · exact isToken_providers
  · exact hns

theorem isTokenList_singleton (e : Str) (h : IsToken e) : IsTokenList [e] :=
  ⟨by simp, by intro x hx; rw [List.mem_singleton.1 hx]; exact h⟩

theorem IsTokenList.append {xs ys : List Str} (hx : IsTokenList xs)
    (hy : ∀ e ∈ ys, IsToken e) : IsTokenList (xs ++ ys) := by
  refine ⟨by simp [hx.1], ?_⟩
  intro e he
  rcases List.mem_append.1 he with he | he
  · exact hx.2 e he
  · exact hy e he

theorem v1ProvidersDir_eq :
    pathJoin ["registry".toList, "v1".toList, "providers".toList] =
      joinSlash ["registry".toList, "v1".toList, "providers".toList] := by decide

theorem providerDirectory_eq (ns : Str) (hns : IsToken ns) :
    pathJoin ["registry".toList,
      pathJoin ["registry".toList, "v1".toList, "providers".toList], ns] =
      joinSlash (providerTokens ns) := by
  rw [v1ProvidersDir_eq]
  have h := pathJoin_tokens ["registry".toList]
    [["registry".toList, "v1".toList, "providers".toList], [ns]]
    (isTokenList_singleton _ isToken_registry) (by
      intro x hx
      simp only [List.mem_cons, List.mem_singleton, List.not_mem_nil, or_false] at hx
      rcases hx with rfl | rfl
      · refine ⟨by simp, ?_⟩
        intro e he
        simp only [List.mem_cons, List.mem_singleton, List.not_mem_nil, or_false] at he
        rcases he with rfl | rfl | rfl
        · exact isToken_registry
        · exact isToken_v1
        · exact isToken_providers
      · exact isTokenList_singleton _ hns)
  exact h

theorem typeDirectory_eq (ns t : Str) (hns : IsToken ns) (ht : IsToken t) :
    pathJoin [joinSlash (providerTokens ns), t] = joinSlash (providerTokens ns ++ [t]) := by
  have h := pathJoin_tokens (providerTokens ns) [[t]] (isTokenList_providerTokens ns hns) (by
    intro x hx
    rw [List.mem_singleton.1 hx]
    exact isTokenList_singleton _ ht)
  exact h

theorem descriptorPath_eq (ns : Str) (b : BinaryMetaData) (hns : IsToken ns)
    (hb : HasTokens b) :
    pathJoin [joinSlash (providerTokens ns ++ [b.TypeName]), b.Version, "download".toList,
      b.Os, b.Arch] = descriptorPath ns b := by
  obtain ⟨ht, hv, ho, ha⟩ := hb
  have hl : IsTokenList (providerTokens ns ++ [b.TypeName]) :=
    (isTokenList_providerTokens ns hns).append (by
      intro e he; rw [List.mem_singleton.1 he]; exact ht)
  have h := pathJoin_tokens (providerTokens ns ++ [b.TypeName])
    [[b.Version], ["download".toList], [b.Os], [b.Arch]] hl (by
      intro x hx
      simp only [List.mem_cons, List.mem_singleton, List.not_mem_nil, or_false] at hx
      rcases hx with rfl | rfl | rfl | rfl
      · exact isTokenList_singleton _ hv
      · exact isTokenList_singleton _ isToken_download
      · exact isTokenList_singleton _ ho
      · exact isTokenList_singleton _ ha)
  simpa [descriptorPath, joinSlash] using h

theorem versionsPath_eq (ns t : Str) (hns : IsToken ns) (ht : IsToken t) :
    pathJoin [joinSlash (providerTokens ns ++ [t]), "versions".toList] = versionsPath ns t := by
  have hl : IsTokenList (providerTokens ns ++ [t]) :=
    (isTokenList_providerTokens ns hns).append (by
      intro e he; rw [List.mem_singleton.1 he]; exact ht)
  have h := pathJoin_tokens (providerTokens ns ++ [t]) [["versions".toList]] hl (by
    intro x hx
    rw [List.mem_singleton.1 hx]
    exact isTokenList_singleton _ isToken_versions)
  simpa [versionsPath, joinSlash] using h

theorem discoveryPath_eq :
    pathJoin ["registry".toList, ".well-known".toList, "terraform.json".toList] =
      discoveryPath := by decide

theorem discoveryPath_tokens :
    discoveryPath =
      joinSlash ["registry".toList, ".well-known".toList, "terraform.json".toList] := by
  decide

theorem isTokenList_discovery :
    IsTokenList ["registry".toList, ".well-known".toList, "terraform.json".toList] := by
  decide

theorem isTokenList_descriptor (ns : Str) (b : BinaryMetaData) (hns : IsToken ns)
    (hb : HasTokens b) :
    IsTokenList (providerTokens ns ++
      [b.TypeName, b.Version, "download".toList, b.Os, b.Arch]) := by
  obtain ⟨ht, hv, ho, ha⟩ := hb
  refine (isTokenList_providerTokens ns hns).append ?_
  intro e he
  simp only [List.mem_cons, List.mem_singleton, List.not_mem_nil, or_false] at he
  rcases he with rfl | rfl | rfl | rfl | rfl
  · exact ht
  · exact hv
  · exact isToken_download
  · exact ho
  · exact ha

theorem isTokenList_versions (ns t : Str) (hns : IsToken ns) (ht : IsToken t) :
    IsTokenList (providerTokens ns ++ [t, "versions".toList]) := by
  refine (isTokenList_providerTokens ns hns).append ?_
  intro e he
  simp only [List.mem_cons, List.mem_singleton, List.not_mem_nil, or_false] at he
  rcases he with rfl | rfl
  · exact ht
  · exact isToken_versions

theorem descriptorPath_ne_discoveryPath (ns : Str) (b : BinaryMetaData) (hns : IsToken ns)
    (hb : HasTokens b) : descriptorPath ns b ≠ discoveryPath := by
  intro h
  rw [discoveryPath_tokens] at h
  have := joinSlash_injective _ _ (isTokenList_descriptor ns b hns hb) isTokenList_discovery h
  simp [providerTokens] at this

theorem versionsPath_ne_discoveryPath (ns t : Str) (hns : IsToken ns) (ht : IsToken t) :
    versionsPath ns t ≠ discoveryPath := by
  intro h
  rw [discoveryPath_tokens] at h
  have := joinSlash_injective _ _ (isTokenList_versions ns t hns ht) isTokenList_discovery h
  simp [providerTokens] at this

theorem descriptorPath_ne_versionsPath (ns t : Str) (b : BinaryMetaData) (hns : IsToken ns)
    (hb : HasTokens b) (ht : IsToken t) : descriptorPath ns b ≠ versionsPath ns t := by
  intro h
  have := joinSlash_injective _ _ (isTokenList_descriptor ns b hns hb)
    (isTokenList_versions ns t hns ht) h
  simp [providerTokens] at this

theorem versionsPath_injective (ns t u : Str) (hns : IsToken ns) (ht : IsToken t)
    (hu : IsToken u) (h : versionsPath ns t = versionsPath ns u) : t = u := by
  have := joinSlash_injective _ _ (isTokenList_versions ns t hns ht)
    (isTokenList_versions ns u hns hu) h
  simpa [providerTokens] using this

/-! ### Witness of the merge -/

theorem Merge_keeps_existing_witness :
    exampleExisting.Versions.filter (fun e => decide (e.Version = "1.0.0".toList)) =
      [{ Version := "1.0.0".toList, Protocols := ["5.0".toList],
         Platforms := [{ Os := "linux".toList, Arch := "amd64".toList }] }] ∧
    (exampleExisting.Merge exampleIncoming).Versions.filter
      (fun e => decide (e.Version = "1.0.0".toList)) =
      [{ Version := "1.0.0".toList, Protocols := ["5.0".toList],
         Platforms := [{ Os := "linux".toList, Arch := "amd64".toList }] }] :=
  ⟨by decide,
   Merge_keeps_existing exampleExisting exampleIncoming
    { Version := "1.0.0".toList, Protocols := ["5.0".toList],
      Platforms := [{ Os := "linux".toList, Arch := "amd64".toList }] }
    (by decide)⟩

/-! ### main -/

theorem MakeFromFileName_fatal {baseURL filePath : Str} {shasums : StrMap}
    {protocols : List Str} {e : Fatal}
    (h : MakeFromFileName baseURL filePath shasums protocols = .fatal e) :
    e = .missingChecksum (pathBase filePath) ∧ shasums (pathBase filePath) = none ∧
      ContainsReleaseName (pathBase filePath) := by
  have hc : ContainsReleaseName (pathBase filePath) := by
    by_contra hn
    rw [(MakeFromFileName_nil_iff baseURL filePath shasums protocols).2 hn] at h
    exact absurd h (by simp)
  obtain ⟨h1, h2, h3⟩ := MakeFromFileName_checksum baseURL filePath shasums protocols hc
  have hnone : shasums (pathBase filePath) = none := h1.1 ⟨e, h⟩
  rw [h2 hnone] at h
  exact ⟨by simpa using h.symm, hnone, hc⟩

theorem createLoop_fatal (baseURL : Str) (shasums : StrMap) (protocols : List Str)
    (files : List Str) (result : List BinaryMetaData)
    (h : ∃ f ∈ files, ContainsReleaseName (pathBase f) ∧ shasums (pathBase f) = none) :
    ∃ g ∈ files, ContainsReleaseName (pathBase g) ∧ shasums (pathBase g) = none ∧
      createLoop baseURL shasums protocols files result =
        .fatal (.missingChecksum (pathBase g)) := by
  induction files generalizing result with
  | nil =>
    obtain ⟨f, hf, _⟩ := h
    exact absurd hf (by simp)
  | cons g files ih =>
    unfold createLoop
    cases hm : MakeFromFileName baseURL g shasums protocols with
    | fatal e =>
      obtain ⟨he, hnone, hc⟩ := MakeFromFileName_fatal hm
      exact ⟨g, List.mem_cons_self _ _, hc, hnone, by simp [he]⟩
    | ok r =>
      have hrest : ∃ f ∈ files, ContainsReleaseName (pathBase f) ∧
          shasums (pathBase f) = none := by
        obtain ⟨f, hf, hc, hnone⟩ := h
        rcases List.mem_cons.1 hf with rfl | hf
        · have := (MakeFromFileName_checksum baseURL f shasums protocols hc).2.1 hnone
          rw [this] at hm
          exact absurd hm (by simp)
        · exact ⟨f, hf, hc, hnone⟩
      cases r with
      | none =>
        obtain ⟨g1, hg1, h1⟩ := ih result hrest
        exact ⟨g1, List.mem_cons_of_mem _ hg1, h1⟩
      | some m =>
        obtain ⟨g1, hg1, h1⟩ := ih (result ++ [m]) hrest
        exact ⟨g1, List.mem_cons_of_mem _ hg1, h1⟩

/-- C9: when the checksum index built from the manifests has no entry for the base name of
some walked file that the release pattern matches, `main` ends with the missing-checksum
failure of such a file and the output tree and its write log are those it started with:
`CreateFromFileList` has built and checked every record before `WriteAPIDocuments` is
reached. -/
theorem main_missing_checksum (Namespace Url : Str) (protocols : List Str)
    (signingKey : PGPSigningKey) (walked : List Str) (readFile : Str → Option Str)
    (w : World) (shasums : StrMap) (f : Str)
    (hidx : shasumsLoop readFile (List.replicate 5 [] ++ walked) (fun _ => none) = .ok shasums)
    (hf : f ∈ walked) (hm : ContainsReleaseName (pathBase f))
    (hs : shasums (pathBase f) = none) :
    ∃ g ∈ walked, ContainsReleaseName (pathBase g) ∧ shasums (pathBase g) = none ∧
      main Namespace Url protocols signingKey walked readFile w =
        (some (.missingChecksum (pathBase g)), w) := by
  obtain ⟨g, hg, hc, hnone, hloop⟩ := createLoop_fatal Url shasums protocols
    (List.replicate 5 [] ++ walked) [] ⟨f, List.mem_append_right _ hf, hm, hs⟩
  have hgw : g ∈ walked := by
    rcases List.mem_append.1 hg with hg | hg
    · have hg0 : g = [] := (List.mem_replicate.1 hg).2
      subst hg0
      rw [containsReleaseName_iff] at hc
      exact absurd hc (by decide)
    · exact hg
  refine ⟨g, hgw, hc, hnone, ?_⟩
  unfold main
  simp only [hidx]
  unfold CreateFromFileList
  rw [hloop]

theorem main_missing_checksum_witness :
    shasumsLoop exampleReadFile (List.replicate 5 [] ++ exampleWalk) (fun _ => none) =
      .ok (StrMap.set (fun _ => none)
        "terraform-provider-foo_1.0.0_darwin_arm64.zip".toList "def456".toList) ∧
    ∃ g ∈ exampleWalk, ContainsReleaseName (pathBase g) ∧
      StrMap.set (fun _ => none) "terraform-provider-foo_1.0.0_darwin_arm64.zip".toList
        "def456".toList (pathBase g) = none ∧
      main "acme".toList "https://example.com/dl".toList ["5.0".toList]
        { KeyID := "KEY".toList, ASCIIArmor := "ARMOR".toList } exampleWalk exampleReadFile
        emptyWorld = (some (.missingChecksum (pathBase g)), emptyWorld) :=
  ⟨rfl,
   main_missing_checksum "acme".toList "https://example.com/dl".toList ["5.0".toList]
    { KeyID := "KEY".toList, ASCIIArmor := "ARMOR".toList } exampleWalk exampleReadFile
    emptyWorld
    (StrMap.set (fun _ => none) "terraform-provider-foo_1.0.0_darwin_arm64.zip".toList
      "def456".toList)
    "dist/terraform-provider-foo_1.0.0_linux_amd64.zip".toList rfl (by decide)
    (by rw [containsReleaseName_iff]; decide) (by decide)⟩

/-! ### Checksum manifests -/

theorem scanAux_replicate (k : Nat) (cur : Str) (n : Nat) (h : MaxScanTokenSize ≤ n + k) :
    scanAux (List.replicate k 'x') cur n = [] := by
  induction k generalizing cur n with
  | zero =>
    have hn : ¬ n < MaxScanTokenSize := by omega
    simp [scanAux, hn]
  | succ k ih =>
    have hx : ('x' : Char) ≠ '\n' := by decide
    have hsize : ('x' : Char).utf8Size = 1 := by decide
    rw [List.replicate_succ, scanAux, if_neg hx, hsize]
    exact ih _ _ (by omega)

theorem fieldsAux_replicate (k : Nat) (cur : Str) (h : cur ≠ [] ∨ 0 < k) :
    (fieldsAux (List.replicate k 'x') cur).length = 1 := by
  induction k generalizing cur with
  | zero =>
    have hc : cur ≠ [] := by
      rcases h with h | h
      · exact h
      · exact absurd h (by simp)
    simp [fieldsAux, hc]
  | succ k ih =>
    have hx : isSpace 'x' = false := by decide
    rw [List.replicate_succ, fieldsAux, hx]
    simp only [Bool.false_eq_true, if_false]
    exact ih _ (Or.inl (by simp))

theorem readShasums_of_scanLines_nil (filename content : Str) (shasums : StrMap)
    (h : scanLines content = []) :
    readShasums filename (some content) shasums = .ok (some shasums) := by
  unfold readShasums
  simp only [h, readShasumsLoop]

/-- C10, the code at the failing input: a manifest whose only line is 65536 times the
letter `x` has one field on that line, yet `readShasums` returns `nil` with the index
as it was; the scanner gives up on the line (`ErrTooLong`) and the loop never sees it. -/
theorem readShasums_long_line (filename : Str) (shasums : StrMap) :
    (Fields (List.replicate 65536 'x')).length = 1 ∧
    readShasums filename (some (List.replicate 65536 'x')) shasums = .ok (some shasums) := by
  refine ⟨fieldsAux_replicate _ _ (Or.inr (by decide)), ?_⟩
  exact readShasums_of_scanLines_nil filename _ shasums
    (scanAux_replicate 65536 [] 0 (by decide))

theorem readShasumsLoop_fatal_iff (filename : Str) (lines : List Str) (shasums : StrMap) :
    (∃ e, readShasumsLoop filename lines shasums = .fatal e) ↔
      ∃ l ∈ lines, (Fields l).length ≠ 2 := by
  induction lines generalizing shasums with
  | nil => simp [readShasumsLoop]
  | cons line rest ih =>
    by_cases h2 : (Fields line).length = 2
    · obtain ⟨digest, name, hf⟩ : ∃ digest name, Fields line = [digest, name] := by
        match hq : Fields line, h2 with
        | [a, b], _ => exact ⟨a, b, rfl⟩
      simp only [readShasumsLoop, hf, ih, List.mem_cons, exists_eq_or_imp, List.length_cons,
        List.length_nil]
      simp
    · constructor
      · intro _
        exact ⟨line, List.mem_cons_self _ _, h2⟩
      · intro _
        unfold readShasumsLoop
        split
        · next digest name hf => rw [hf] at h2; exact absurd rfl h2
        · exact ⟨_, rfl⟩

theorem utf8Len_eq_zero (s : Str) : utf8Len s = 0 ↔ s = [] := by
  cases s with
  | nil => simp [utf8Len]
  | cons c s =>
    have := Char.utf8Size_pos c
    simp only [utf8Len, List.map_cons, List.sum_cons]
    constructor
    · intro h; omega
    · intro h; exact absurd h (by simp)

theorem utf8Len_reverse (s : Str) : utf8Len s.reverse = utf8Len s := by
  simp [utf8Len, List.sum_reverse]

theorem scanAux_eq_manifestLines (data cur : Str)
    (h : ∀ l ∈ manifestLinesAux data cur, utf8Len l < MaxScanTokenSize) :
    scanAux data cur (utf8Len cur) = (manifestLinesAux data cur).map stripCR := by
  induction data generalizing cur with
  | nil =>
    by_cases hc : cur = []
    · subst hc; simp [scanAux, manifestLinesAux, utf8Len]
    · have h0 : utf8Len cur ≠ 0 := fun h0 => hc ((utf8Len_eq_zero cur).1 h0)
      have hlt : utf8Len cur < MaxScanTokenSize := by
        have := h cur.reverse (by simp [manifestLinesAux, hc])
        rwa [utf8Len_reverse] at this
      simp [scanAux, manifestLinesAux, hc, h0, hlt, stripCR]
  | cons c cs ih =>
    by_cases hn : c = '\n'
    · subst hn
      have hlt : utf8Len cur < MaxScanTokenSize := by
        have := h cur.reverse (by simp [manifestLinesAux])
        rwa [utf8Len_reverse] at this
      have hrest := ih [] (fun l hl => h l (by simp [manifestLinesAux, hl]))
      have h0 : utf8Len [] = 0 := rfl
      rw [h0] at hrest
      simp [scanAux, manifestLinesAux, hlt, hrest, stripCR]
    · have hrest := ih (c :: cur) (fun l hl => h l (by simpa [manifestLinesAux, hn] using hl))
      have hlen : utf8Len (c :: cur) = utf8Len cur + c.utf8Size := by
        simp [utf8Len, Nat.add_comm]
      rw [hlen] at hrest
      simp [scanAux, manifestLinesAux, hn, hrest]

theorem scanLines_eq_manifestLines (content : Str)
    (h : ∀ l ∈ manifestLines content, utf8Len l < MaxScanTokenSize) :
    scanLines content = (manifestLines content).map stripCR :=
  scanAux_eq_manifestLines content [] h

theorem fieldsAux_append_space (s cur : Str) (c : Char) (hc : isSpace c = true) :
    fieldsAux (s ++ [c]) cur = fieldsAux s cur := by
  induction s generalizing cur with
  | nil => by_cases h : cur = [] <;> simp [fieldsAux, hc, h]
  | cons a s ih =>
    show fieldsAux (a :: (s ++ [c])) cur = fieldsAux (a :: s) cur
    unfold fieldsAux
    simp only [ih]

theorem Fields_stripCR (l : Str) : Fields (stripCR l) = Fields l := by
  unfold stripCR
  cases hr : l.reverse with
  | nil =>
    have : l = [] := by simpa using hr
    subst this; rfl
  | cons c r =>
    have hl : l = r.reverse ++ [c] := by
      have := congrArg List.reverse hr
      simpa using this
    by_cases hc : c = '\r'
    · subst hc
      have hsp : isSpace '\r' = true := by decide
      simp only [dropCR, if_true]
      rw [hl]
      exact (fieldsAux_append_space r.reverse [] '\r' hsp).symm
    · simp only [dropCR, if_neg hc]
      rw [← hr, List.reverse_reverse]

/-- Within the buffer of the scanner the claim of C10 on aborting holds: when every line
of the manifest is shorter than `MaxScanTokenSize` bytes, `readShasums` ends the process
if and only if some line does not have exactly two fields. -/
theorem readShasums_fatal_iff_of_short_lines (filename content : Str) (shasums : StrMap)
    (h : ∀ l ∈ manifestLines content, utf8Len l < MaxScanTokenSize) :
    (∃ e, readShasums filename (some content) shasums = .fatal e) ↔
      ∃ l ∈ manifestLines content, (Fields l).length ≠ 2 := by
  have hloop := readShasumsLoop_fatal_iff filename (scanLines content) shasums
  rw [scanLines_eq_manifestLines content h] at hloop
  have hmap : (∃ l ∈ (manifestLines content).map stripCR, (Fields l).length ≠ 2) ↔
      ∃ l ∈ manifestLines content, (Fields l).length ≠ 2 := by
    simp [Fields_stripCR]
  rw [hmap] at hloop
  rw [← hloop, ← scanLines_eq_manifestLines content h]
  unfold readShasums
  cases hq : readShasumsLoop filename (scanLines content) shasums <;> simp [hq]

theorem readShasumsLoop_ok (filename : Str) (lines : List Str) (shasums : StrMap)
    (h : ∀ l ∈ lines, (Fields l).length = 2) :
    ∃ m, readShasumsLoop filename lines shasums = .ok m ∧
      (∀ name, (∀ l ∈ lines, ∀ d, Fields l ≠ [d, name]) → m name = shasums name) ∧
      (∀ pre l post d name, lines = pre ++ l :: post → Fields l = [d, name] →
        (∀ l1 ∈ post, ∀ d1, Fields l1 ≠ [d1, name]) → m name = some d) := by
  induction lines generalizing shasums with
  | nil =>
    refine ⟨shasums, rfl, fun _ _ => rfl, ?_⟩
    intro pre l post d name hl
    exact absurd hl (by simp)
  | cons line rest ih =>
    obtain ⟨d0, n0, hf⟩ : ∃ d0 n0, Fields line = [d0, n0] := by
      have h2 := h line (List.mem_cons_self _ _)
      match hq : Fields line, h2 with
      | [a, b], _ => exact ⟨a, b, rfl⟩
    obtain ⟨m, hm, hun, hlast⟩ := ih (shasums.set n0 d0)
      (fun l hl => h l (List.mem_cons_of_mem _ hl))
    refine ⟨m, by simp only [readShasumsLoop, hf, hm], ?_, ?_⟩
    · intro name hname
      rw [hun name (fun l hl => hname l (List.mem_cons_of_mem _ hl))]
      have hne : name ≠ n0 := by
        intro he
        exact hname line (List.mem_cons_self _ _) d0 (by rw [hf, he])
      simp [StrMap.set, hne]
    · intro pre l post d name hl hfl hpost
      cases pre with
      | nil =>
        simp only [List.nil_append, List.cons.injEq] at hl
        obtain ⟨rfl, rfl⟩ := hl
        rw [hf] at hfl
        simp only [List.cons.injEq, and_true] at hfl
        obtain ⟨rfl, rfl⟩ := hfl
        rw [hun n0 hpost]
        simp [StrMap.set]
      | cons p pre =>
        simp only [List.cons_append, List.cons.injEq] at hl
        exact hlast pre l post d name hl.2 hfl hpost

/-- Within the buffer of the scanner the rest of the claim of C10 holds too: when every
line of the manifest is shorter than `MaxScanTokenSize` bytes and has two fields,
`readShasums` returns `nil`; a file name that no line names keeps its entry, and a file
name has the digest of the last line that names it. -/
theorem readShasums_ok_of_short_lines (filename content : Str) (shasums : StrMap)
    (h : ∀ l ∈ manifestLines content, utf8Len l < MaxScanTokenSize)
    (hwf : ∀ l ∈ manifestLines content, (Fields l).length = 2) :
    ∃ m, readShasums filename (some content) shasums = .ok (some m) ∧
      (∀ name, (∀ l ∈ manifestLines content, ∀ d, Fields l ≠ [d, name]) →
        m name = shasums name) ∧
      (∀ pre l post d name, manifestLines content = pre ++ l :: post →
        Fields l = [d, name] → (∀ l1 ∈ post, ∀ d1, Fields l1 ≠ [d1, name]) →
        m name = some d) := by
  obtain ⟨m, hm, hun, hlast⟩ := readShasumsLoop_ok filename
    ((manifestLines content).map stripCR) shasums (by
      intro l hl
      obtain ⟨l0, hl0, rfl⟩ := List.mem_map.1 hl
      rw [Fields_stripCR]
      exact hwf l0 hl0)
  refine ⟨m, ?_, ?_, ?_⟩
  · unfold readShasums
    simp only [scanLines_eq_manifestLines content h, hm]
  · intro name hname
    apply hun
    intro l hl d
    obtain ⟨l0, hl0, rfl⟩ := List.mem_map.1 hl
    rw [Fields_stripCR]
    exact hname l0 hl0 d
  · intro pre l post d name hl hfl hpost
    apply hlast (pre.map stripCR) (stripCR l) (post.map stripCR) d name
    · rw [hl]; simp
    · rw [Fields_stripCR]; exact hfl
    · intro l1 hl1 d1
      obtain ⟨l0, hl0, rfl⟩ := List.mem_map.1 hl1
      rw [Fields_stripCR]
      exact hpost l0 hl0 d1

/-! ### The provider map -/

theorem ProviderMap.get_eq_none_iff (r : ProviderMap) (k : Str) :
    r.get k = none ↔ k ∉ r.map Prod.fst := by
  induction r with
  | nil => simp [ProviderMap.get]
  | cons kv r ih =>
    obtain ⟨k1, v1⟩ := kv
    by_cases h : k1 = k
    · simp [ProviderMap.get, h]
    · simp only [ProviderMap.get, if_neg h, ih, List.map_cons, List.mem_cons, not_or]
      constructor
      · intro hk; exact ⟨fun e => h e.symm, hk⟩
      · intro hk; exact hk.2

theorem extractStep_keys (r : ProviderMap) (m : BinaryMetaData) :
    (extractStep r m).map Prod.fst =
      if m.TypeName ∈ r.map Prod.fst then r.map Prod.fst
      else r.map Prod.fst ++ [m.TypeName] := by
  unfold extractStep
  cases hg : r.get m.TypeName with
  | none =>
    have := (ProviderMap.get_eq_none_iff r m.TypeName).1 hg
    simp [this]
  | some v =>
    have hmem : m.TypeName ∈ r.map Prod.fst := by
      by_contra hc
      rw [(ProviderMap.get_eq_none_iff r m.TypeName).2 hc] at hg
      exact absurd hg (by simp)
    rw [if_pos hmem]
    simp only [List.map_map]
    apply List.map_congr_left
    intro kv _
    simp only [Function.comp]
    split <;> rfl

theorem extract_fold_keys (l : List BinaryMetaData) (r : ProviderMap)
    (hr : (r.map Prod.fst).Nodup) :
    ((l.foldl extractStep r).map Prod.fst).Nodup ∧
    ∀ k, k ∈ (l.foldl extractStep r).map Prod.fst ↔
      k ∈ r.map Prod.fst ∨ ∃ b ∈ l, b.TypeName = k := by
  induction l generalizing r with
  | nil => simp [hr]
  | cons m l ih =>
    have hstep : ((extractStep r m).map Prod.fst).Nodup := by
      rw [extractStep_keys]
      by_cases hm : m.TypeName ∈ r.map Prod.fst
      · rw [if_pos hm]; exact hr
      · rw [if_neg hm]
        exact List.Nodup.append hr (List.nodup_singleton _) (by
          intro a ha hb
          rw [List.mem_singleton.1 hb] at ha
          exact hm ha)
    obtain ⟨h1, h2⟩ := ih (extractStep r m) hstep
    refine ⟨h1, ?_⟩
    intro k
    rw [List.foldl_cons, h2 k, extractStep_keys]
    by_cases hm : m.TypeName ∈ r.map Prod.fst
    · rw [if_pos hm]
      constructor
      · rintro (h | ⟨b, hb, rfl⟩)
        · exact Or.inl h
        · exact Or.inr ⟨b, List.mem_cons_of_mem _ hb, rfl⟩
      · rintro (h | ⟨b, hb, rfl⟩)
        · exact Or.inl h
        · rcases List.mem_cons.1 hb with rfl | hb
          · exact Or.inl hm
          · exact Or.inr ⟨b, hb, rfl⟩
    · rw [if_neg hm]
      constructor
      · rintro (h | ⟨b, hb, rfl⟩)
        · rcases List.mem_append.1 h with h | h
          · exact Or.inl h
          · exact Or.inr ⟨m, List.mem_cons_self _ _, (List.mem_singleton.1 h).symm⟩
        · exact Or.inr ⟨b, List.mem_cons_of_mem _ hb, rfl⟩
      · rintro (h | ⟨b, hb, rfl⟩)
        · exact Or.inl (List.mem_append_left _ h)
        · rcases List.mem_cons.1 hb with rfl | hb
          · exact Or.inl (List.mem_append_right _ (List.mem_singleton_self _))
          · exact Or.inr ⟨b, hb, rfl⟩

theorem ExtractVersions_keys (l : List BinaryMetaData) :
    ((ExtractVersions l).map Prod.fst).Nodup ∧
    ∀ k, k ∈ (ExtractVersions l).map Prod.fst ↔ ∃ b ∈ l, b.TypeName = k := by
  obtain ⟨h1, h2⟩ := extract_fold_keys l [] (by simp)
  exact ⟨h1, fun k => by rw [ExtractVersions, h2 k]; simp⟩

theorem discoveryValue_registry :
    pathJoin ["/".toList, pathJoin ["registry".toList, "v1".toList, "providers".toList]] ++
      "/".toList = "/registry/v1/providers/".toList := by decide

theorem ExtractVersions_tokens (l : List BinaryMetaData) (hl : ∀ b ∈ l, HasTokens b) :
    ∀ kv ∈ ExtractVersions l, IsToken kv.1 := by
  intro kv hkv
  obtain ⟨b, hb, hbk⟩ := ((ExtractVersions_keys l).2 kv.1).1 (List.mem_map_of_mem Prod.fst hkv)
  rw [← hbk]
  exact (hl b hb).1

theorem ExtractVersions_get_isSome (l : List BinaryMetaData) (b : BinaryMetaData)
    (hb : b ∈ l) : ∃ pv, (ExtractVersions l).get b.TypeName = some pv := by
  cases hg : (ExtractVersions l).get b.TypeName with
  | some pv => exact ⟨pv, rfl⟩
  | none =>
    have h1 := (ProviderMap.get_eq_none_iff _ _).1 hg
    exact absurd (((ExtractVersions_keys l).2 b.TypeName).2 ⟨b, hb, rfl⟩) h1

/-! ### The file system -/

theorem isPrefix_iff (q k : List Str) : isPrefix q k = true ↔ q <+: k := by
  induction q generalizing k with
  | nil => simp [isPrefix]
  | cons a q ih =>
    cases k with
    | nil => simp [isPrefix]
    | cons b k =>
      simp only [isPrefix, Bool.and_eq_true, decide_eq_true_eq, ih, List.cons_prefix_cons]

theorem layout_prefix_eq {p q : List Str} (hp : IsLayoutKey p) (hq : IsLayoutKey q)
    (h : p <+: q) : p = q := by
  obtain ⟨t, ht⟩ := h
  rcases hp with rfl | ⟨ns, t1, v, o, a, hv, rfl⟩ | ⟨ns, t1, rfl⟩ <;>
    rcases hq with rfl | ⟨ns2, t2, v2, o2, a2, hv2, rfl⟩ | ⟨ns2, t2, rfl⟩
  · rfl
  · simp [discoveryKey, providerTokens] at ht
  · simp [discoveryKey, providerTokens] at ht
  · simp [discoveryKey, providerTokens] at ht
  · simp only [providerTokens, List.cons_append, List.nil_append, List.cons.injEq,
      true_and] at ht
    obtain ⟨rfl, rfl, rfl, rfl, rfl, _⟩ := ht
    rfl
  · simp only [providerTokens, List.cons_append, List.nil_append, List.cons.injEq,
      true_and] at ht
    simp at ht
  · simp [discoveryKey, providerTokens] at ht
  · simp only [providerTokens, List.cons_append, List.nil_append, List.cons.injEq,
      true_and] at ht
    obtain ⟨_, _, hvv, _⟩ := ht
    exact absurd hvv.symm hv2
  · simp only [providerTokens, List.cons_append, List.nil_append, List.cons.injEq,
      true_and] at ht
    obtain ⟨rfl, rfl, _⟩ := ht
    rfl

theorem layout_ne_nil {p : List Str} (hp : IsLayoutKey p) : p ≠ [] := by
  rcases hp with rfl | ⟨ns, t1, v, o, a, hv, rfl⟩ | ⟨ns, t1, rfl⟩ <;>
    simp [discoveryKey, providerTokens]

theorem isFileAt_eq_true {fs : FileSystem} {k : List Str} (h : isFileAt fs k = true) :
    ∃ d, fs k = some (.file d) := by
  unfold isFileAt at h
  split at h
  · next d hd => exact ⟨d, hd⟩
  · exact absurd h (by simp)

theorem Conforms.not_file_of_proper_prefix {fs : FileSystem} (hc : Conforms fs)
    {p q : List Str} (hp : IsLayoutKey p) (hq : q <+: p) (hne : q ≠ p) :
    isFileAt fs q = false := by
  cases hf : isFileAt fs q with
  | false => rfl
  | true =>
    obtain ⟨d, hd⟩ := isFileAt_eq_true hf
    exact absurd (layout_prefix_eq (hc.1 q d hd) hp hq) hne

theorem isDirAt_iff (fs : FileSystem) (k : List Str) :
    isDirAt fs k = true ↔ k = [] ∨ fs k = some .dir := by
  simp [isDirAt]

theorem Conforms.not_dir_layout {fs : FileSystem} (hc : Conforms fs) {p : List Str}
    (hp : IsLayoutKey p) : isDirAt fs p = false := by
  cases hd : isDirAt fs p with
  | false => rfl
  | true =>
    rcases (isDirAt_iff fs p).1 hd with h | h
    · exact absurd h (layout_ne_nil hp)
    · obtain ⟨q, hq, hpq, hneq⟩ := hc.2 p h
      exact absurd (layout_prefix_eq hp hq hpq) hneq

theorem MkdirAll_of_clear (path : Str) (fs : FileSystem)
    (h : ∀ q, q <+: pathKey path → isFileAt fs q = false) :
    MkdirAll path fs = (fs.withDirs (pathKey path), true) := by
  unfold MkdirAll
  have hany : (pathKey path).inits.any (fun q => isFileAt fs q) = false := by
    rw [List.any_eq_false]
    intro q hq
    rw [h q ((List.mem_inits _ _).1 hq)]
    simp
  rw [hany]
  simp

theorem Conforms.withDirs {fs : FileSystem} (hc : Conforms fs) {p k : List Str}
    (hp : IsLayoutKey p) (hk : k <+: p) (hne : k ≠ p) : Conforms (fs.withDirs k) := by
  refine ⟨?_, ?_⟩
  · intro q d hq
    unfold FileSystem.withDirs at hq
    split at hq
    · exact absurd hq (by simp)
    · exact hc.1 q d hq
  · intro q hq
    unfold FileSystem.withDirs at hq
    split at hq
    · next hcond =>
      have hqk : q <+: k := (isPrefix_iff q k).1 hcond.2
      refine ⟨p, hp, hqk.trans hk, ?_⟩
      rintro rfl
      exact hne (List.IsPrefix.eq_of_length hk (le_antisymm hk.length_le hqk.length_le))
    · exact hc.2 q hq

theorem Conforms.withFile {fs : FileSystem} (hc : Conforms fs) {p : List Str}
    (hp : IsLayoutKey p) (d : Doc) : Conforms (fs.withFile p d) := by
  refine ⟨?_, ?_⟩
  · intro q d1 hq
    unfold FileSystem.withFile at hq
    split at hq
    · next he => rw [he]; exact hp
    · exact hc.1 q d1 hq
  · intro q hq
    unfold FileSystem.withFile at hq
    split at hq
    · exact absurd hq (by simp)
    · exact hc.2 q hq

theorem isDirAt_withDirs_of_prefix (fs : FileSystem) {q k : List Str} (h : q <+: k) :
    isDirAt (fs.withDirs k) q = true := by
  rw [isDirAt_iff]
  by_cases hq : q = []
  · exact Or.inl hq
  · right
    have : isPrefix q k = true := (isPrefix_iff _ _).2 h
    simp [FileSystem.withDirs, this, hq]

theorem isDirAt_withDirs_mono (fs : FileSystem) (k : List Str) {q : List Str}
    (h : isDirAt fs q = true) : isDirAt (fs.withDirs k) q = true := by
  rw [isDirAt_iff] at h ⊢
  rcases h with h | h
  · exact Or.inl h
  · right
    unfold FileSystem.withDirs
    split
    · rfl
    · exact h

theorem isDirAt_withFile_mono (fs : FileSystem) {k : List Str} (d : Doc)
    (hk : isDirAt fs k = false) {q : List Str} (h : isDirAt fs q = true) :
    isDirAt (fs.withFile k d) q = true := by
  have hqk : q ≠ k := by
    rintro rfl
    rw [h] at hk
    exact absurd hk (by simp)
  rw [isDirAt_iff] at h ⊢
  rcases h with h | h
  · exact Or.inl h
  · right
    simp [FileSystem.withFile, hqk, h]

/-! ### Paths and their elements -/

theorem pathKey_joinSlash (ts : List Str) (h : IsTokenList ts) :
    pathKey (joinSlash ts) = ts := by
  have hs := splitSlash_joinSlash ts h.1 (fun e he => (h.2 e he).2.1)
  unfold pathKey
  by_cases hd : joinSlash ts = ['.']
  · exfalso
    rw [hd] at hs
    have hmem : ['.'] ∈ ts := by rw [← hs]; simp [splitSlash]
    exact (h.2 _ hmem).2.2.1 rfl
  · rw [if_neg hd, hs]

theorem pathClean_append_slash (s : Str) (hs : s ≠ []) :
    pathClean (s ++ ['/']) = pathClean s := by
  have hne : s ++ ['/'] ≠ [] := by simp
  have hhead : (s ++ ['/']).head? = s.head? := by
    cases s with
    | nil => exact absurd rfl hs
    | cons c s => rfl
  unfold pathClean
  rw [if_neg hne, if_neg hs]
  simp only [hhead, splitSlash_append_slash, List.foldl_append, List.foldl_cons,
    List.foldl_nil, cleanStep_nil]

theorem dropToSlash_append (x r : Str) (h : '/' ∉ x) :
    dropToSlash (x ++ '/' :: r) = '/' :: r := by
  induction x with
  | nil => simp [dropToSlash]
  | cons c x ih =>
    have hc : c ≠ '/' := fun hc => h (hc ▸ List.mem_cons_self _ _)
    simp only [List.cons_append, dropToSlash, hc, ↓reduceIte]
    exact ih (fun hm => h (List.mem_cons_of_mem _ hm))

theorem pathDir_joinSlash (ts : List Str) (x : Str) (hts : IsTokenList ts) (hx : IsToken x) :
    pathDir (joinSlash (ts ++ [x])) = joinSlash ts := by
  have hj : joinSlash (ts ++ [x]) = joinSlash ts ++ '/' :: x := by
    rw [joinSlash_append ts [x] hts.1 (by simp)]
    rfl
  have hrev : (joinSlash ts ++ '/' :: x).reverse = x.reverse ++ '/' :: (joinSlash ts).reverse := by
    simp
  unfold pathDir
  rw [hj, hrev, dropToSlash_append _ _ (by simpa using hx.2.1)]
  have hr : ('/' :: (joinSlash ts).reverse).reverse = joinSlash ts ++ ['/'] := by simp
  rw [hr, pathClean_append_slash _ (joinSlash_head ts hts).1, pathClean_joinSlash ts hts]

/-! ### Writes on a tree that holds the layout -/

theorem writeJson_after_MkdirAll (fs : FileSystem) (log : List Write) (ts : List Str)
    (x : Str) (doc : Doc) (hc : Conforms fs) (hts : IsTokenList ts) (hx : IsToken x)
    (hl : IsLayoutKey (ts ++ [x])) :
    writeJson (joinSlash (ts ++ [x])) doc
      { fs := (MkdirAll (pathDir (joinSlash (ts ++ [x]))) fs).1, log := log } =
      { fs := (fs.withDirs ts).withFile (ts ++ [x]) doc,
        log := log ++ [{ path := joinSlash (ts ++ [x]), doc := doc }] } := by
  have hpre : ts <+: ts ++ [x] := List.prefix_append ts [x]
  have hne : ts ≠ ts ++ [x] := by
    intro h
    have := congrArg List.length h
    simp at this
  have hclear : ∀ q, q <+: ts → isFileAt fs q = false := by
    intro q hq
    refine hc.not_file_of_proper_prefix hl (hq.trans hpre) ?_
    rintro rfl
    exact hne (List.IsPrefix.eq_of_length hpre (le_antisymm hpre.length_le hq.length_le))
  have hc1 : Conforms (fs.withDirs ts) := hc.withDirs hl hpre hne
  rw [pathDir_joinSlash ts x hts hx]
  have hk : pathKey (joinSlash ts) = ts := pathKey_joinSlash ts hts
  have hmk := MkdirAll_of_clear (joinSlash ts) fs (by rw [hk]; exact hclear)
  rw [hmk, hk]
  have hkx : pathKey (joinSlash (ts ++ [x])) = ts ++ [x] :=
    pathKey_joinSlash _ (hts.append (by intro e he; rw [List.mem_singleton.1 he]; exact hx))
  unfold writeJson
  simp only [hkx]
  have hcr : createFile (fs.withDirs ts) (ts ++ [x]) doc =
      some ((fs.withDirs ts).withFile (ts ++ [x]) doc) := by
    unfold createFile
    rw [if_pos]
    refine ⟨?_, hc1.not_dir_layout hl⟩
    rw [List.dropLast_concat]
    exact isDirAt_withDirs_of_prefix fs (List.prefix_refl ts)
  rw [hcr]

theorem writeJson_of_parent (w : World) (ts : List Str) (x : Str) (doc : Doc)
    (hc : Conforms w.fs) (hts : IsTokenList ts) (hx : IsToken x)
    (hl : IsLayoutKey (ts ++ [x])) (hdir : isDirAt w.fs ts = true) :
    writeJson (joinSlash (ts ++ [x])) doc w =
      { fs := w.fs.withFile (ts ++ [x]) doc,
        log := w.log ++ [{ path := joinSlash (ts ++ [x]), doc := doc }] } := by
  have hkx : pathKey (joinSlash (ts ++ [x])) = ts ++ [x] :=
    pathKey_joinSlash _ (hts.append (by intro e he; rw [List.mem_singleton.1 he]; exact hx))
  unfold writeJson
  simp only [hkx]
  have hcr : createFile w.fs (ts ++ [x]) doc = some (w.fs.withFile (ts ++ [x]) doc) := by
    unfold createFile
    rw [if_pos]
    refine ⟨?_, hc.not_dir_layout hl⟩
    rw [List.dropLast_concat]
    exact hdir
  rw [hcr]

/-! ### The steps of the pipeline -/

theorem descriptorKey_eq (ns : Str) (b : BinaryMetaData) :
    descriptorKey ns b =
      (providerTokens ns ++ [b.TypeName, b.Version, "download".toList, b.Os]) ++ [b.Arch] := by
  simp [descriptorKey]

theorem versionsKey_eq (ns t : Str) :
    versionsKey ns t = (providerTokens ns ++ [t]) ++ ["versions".toList] := by
  simp [versionsKey]

theorem isLayoutKey_descriptor (ns : Str) (b : BinaryMetaData)
    (hv : b.Version ≠ "versions".toList) : IsLayoutKey (descriptorKey ns b) :=
  Or.inr (Or.inl ⟨ns, b.TypeName, b.Version, b.Os, b.Arch, hv, rfl⟩)

theorem isLayoutKey_versions (ns t : Str) : IsLayoutKey (versionsKey ns t) :=
  Or.inr (Or.inr ⟨ns, t, rfl⟩)

theorem isLayoutKey_discovery : IsLayoutKey discoveryKey := Or.inl rfl

theorem isTokenList_descriptor_dir (ns : Str) (b : BinaryMetaData) (hns : IsToken ns)
    (hb : HasTokens b) :
    IsTokenList (providerTokens ns ++ [b.TypeName, b.Version, "download".toList, b.Os]) := by
  obtain ⟨ht, hv, ho, _⟩ := hb
  refine (isTokenList_providerTokens ns hns).append ?_
  intro e he
  simp only [List.mem_cons, List.mem_singleton, List.not_mem_nil, or_false] at he
  rcases he with rfl | rfl | rfl | rfl
  · exact ht
  · exact hv
  · exact isToken_download
  · exact ho

theorem isTokenList_type_dir (ns t : Str) (hns : IsToken ns) (ht : IsToken t) :
    IsTokenList (providerTokens ns ++ [t]) :=
  (isTokenList_providerTokens ns hns).append (by
    intro e he; rw [List.mem_singleton.1 he]; exact ht)

theorem versionsKey_injective (ns t u : Str) (h : versionsKey ns t = versionsKey ns u) :
    t = u := by
  simpa [versionsKey, providerTokens] using h

theorem versionsKey_not_prefix_descriptorKey (ns t : Str) (b : BinaryMetaData)
    (hv : b.Version ≠ "versions".toList) : ¬ versionsKey ns t <+: descriptorKey ns b := by
  intro h
  have := layout_prefix_eq (isLayoutKey_versions ns t) (isLayoutKey_descriptor ns b hv) h
  have hl := congrArg List.length this
  simp [versionsKey, descriptorKey, providerTokens] at hl

theorem discoveryKey_not_prefix_descriptorKey (ns : Str) (b : BinaryMetaData)
    (hv : b.Version ≠ "versions".toList) : ¬ discoveryKey <+: descriptorKey ns b := by
  intro h
  have := layout_prefix_eq isLayoutKey_discovery (isLayoutKey_descriptor ns b hv) h
  have hl := congrArg List.length this
  simp [discoveryKey, descriptorKey, providerTokens] at hl

theorem discoveryKey_ne_versionsKey (ns t : Str) : discoveryKey ≠ versionsKey ns t := by
  intro h
  have hl := congrArg List.length h
  simp [discoveryKey, versionsKey, providerTokens] at hl

theorem withFile_withDirs_other (fs : FileSystem) (kd k q : List Str) (doc : Doc)
    (h1 : q ≠ k) (h2 : ¬ q <+: kd) : ((fs.withDirs kd).withFile k doc) q = fs q := by
  have h3 : ¬ isPrefix q kd = true := fun h => h2 ((isPrefix_iff q kd).1 h)
  simp [FileSystem.withFile, FileSystem.withDirs, h1, h3]

theorem writeProviderVersion_step (ns : Str) (b : BinaryMetaData) (w : World)
    (hns : IsToken ns) (hb : HasTokens b) (hv : b.Version ≠ "versions".toList)
    (hc : Conforms w.fs) :
    writeProviderVersion (pathJoin [pathJoin ["registry".toList,
      pathJoin ["registry".toList, "v1".toList, "providers".toList], ns], b.TypeName]) b w =
      { fs := (w.fs.withDirs
            (providerTokens ns ++ [b.TypeName, b.Version, "download".toList, b.Os])).withFile
          (descriptorKey ns b) (.descriptor b.persisted),
        log := w.log ++ [descriptorWrite ns b] } := by
  unfold writeProviderVersion
  rw [providerDirectory_eq ns hns, typeDirectory_eq ns _ hns hb.1, descriptorPath_eq ns b hns hb]
  simp only []
  have h := writeJson_after_MkdirAll w.fs w.log
    (providerTokens ns ++ [b.TypeName, b.Version, "download".toList, b.Os]) b.Arch
    (.descriptor b.persisted) hc (isTokenList_descriptor_dir ns b hns hb) hb.2.2.2
    (by rw [← descriptorKey_eq]; exact isLayoutKey_descriptor ns b hv)
  rw [← descriptorKey_eq] at h
  exact h

theorem writeProviderVersions_step (ns t : Str) (pv : ProviderVersions) (w : World)
    (hns : IsToken ns) (ht : IsToken t) (hc : Conforms w.fs)
    (hdir : isDirAt w.fs (providerTokens ns ++ [t]) = true) :
    writeProviderVersions (pathJoin [pathJoin ["registry".toList,
      pathJoin ["registry".toList, "v1".toList, "providers".toList], ns], t]) pv w =
      if readVersions w.fs (versionsPath ns t) = pv then w
      else World.mk
        (w.fs.withFile (versionsKey ns t)
          (.versions ((readVersions w.fs (versionsPath ns t)).Merge pv)))
        (w.log ++ [Write.mk (versionsPath ns t)
          (.versions ((readVersions w.fs (versionsPath ns t)).Merge pv))]) := by
  unfold writeProviderVersions
  rw [providerDirectory_eq ns hns, typeDirectory_eq ns _ hns ht, versionsPath_eq ns t hns ht]
  simp only []
  split
  · rfl
  · have h := writeJson_of_parent w (providerTokens ns ++ [t]) "versions".toList
      (.versions ((readVersions w.fs (versionsPath ns t)).Merge pv)) hc
      (isTokenList_type_dir ns t hns ht) isToken_versions
      (by rw [← versionsKey_eq]; exact isLayoutKey_versions ns t) hdir
    rw [← versionsKey_eq] at h
    exact h

theorem discoveryDir_eq :
    pathDir discoveryPath = joinSlash ["registry".toList, ".well-known".toList] := by decide

theorem assertDiscoveryDocument_step (w : World) (hc : Conforms w.fs) :
    assertDiscoveryDocument "registry".toList
      (pathJoin ["registry".toList, "v1".toList, "providers".toList]) w =
      if mapDeepEqual expectedDiscovery (readDiscovery w.fs discoveryPath) = true then (none, w)
      else (none,
        { fs := (w.fs.withDirs ["registry".toList, ".well-known".toList]).withFile
            discoveryKey (.discovery expectedDiscovery),
          log := w.log ++ [{ path := discoveryPath, doc := .discovery expectedDiscovery }] }) := by
  unfold assertDiscoveryDocument
  simp only []
  rw [discoveryValue_registry, discoveryPath_eq]
  show (if (!mapDeepEqual expectedDiscovery (readDiscovery w.fs discoveryPath)) = true
    then (match MkdirAll (pathDir discoveryPath) w.fs with
      | (fs, false) => (some Fatal.cannotCreateWellKnown, { w with fs := fs })
      | (fs, true) => (none, writeJson discoveryPath (.discovery expectedDiscovery)
          { w with fs := fs }))
    else (none, w)) = _
  cases h : mapDeepEqual expectedDiscovery (readDiscovery w.fs discoveryPath) with
  | true => simp
  | false =>
    simp only [Bool.not_false, if_true, Bool.false_eq_true, if_false]
    have hclear : ∀ q, q <+: ["registry".toList, ".well-known".toList] →
        isFileAt w.fs q = false := by
      intro q hq
      refine hc.not_file_of_proper_prefix isLayoutKey_discovery
        (hq.trans (List.prefix_append _ ["terraform.json".toList])) ?_
      rintro rfl
      have := hq.length_le
      simp [discoveryKey] at this
    have hk : pathKey (pathDir discoveryPath) = ["registry".toList, ".well-known".toList] := by
      decide
    have hmk := MkdirAll_of_clear (pathDir discoveryPath) w.fs (by rw [hk]; exact hclear)
    rw [hmk, hk]
    have h1 := writeJson_after_MkdirAll w.fs w.log ["registry".toList, ".well-known".toList]
      "terraform.json".toList (.discovery expectedDiscovery) hc (by decide) (by decide)
      isLayoutKey_discovery
    have hj : joinSlash (["registry".toList, ".well-known".toList] ++
        ["terraform.json".toList]) = discoveryPath := by decide
    rw [hj, hmk] at h1
    simp only [hk] at h1
    show (none, writeJson discoveryPath (.discovery expectedDiscovery)
      { fs := w.fs.withDirs ["registry".toList, ".well-known".toList], log := w.log }) = _
    rw [h1]
    rfl

/-! ### The loops of the pipeline -/

theorem conforms_after_write (fs : FileSystem) (hc : Conforms fs) (ts : List Str) (x : Str)
    (doc : Doc) (hl : IsLayoutKey (ts ++ [x])) :
    Conforms ((fs.withDirs ts).withFile (ts ++ [x]) doc) ∧
      isDirAt (fs.withDirs ts) (ts ++ [x]) = false := by
  have hpre : ts <+: ts ++ [x] := List.prefix_append ts [x]
  have hne : ts ≠ ts ++ [x] := by
    intro h
    have := congrArg List.length h
    simp at this
  have hclear : ∀ q, q <+: ts → isFileAt fs q = false := by
    intro q hq
    refine hc.not_file_of_proper_prefix hl (hq.trans hpre) ?_
    rintro rfl
    exact hne (List.IsPrefix.eq_of_length hpre (le_antisymm hpre.length_le hq.length_le))
  have hc1 : Conforms (fs.withDirs ts) := hc.withDirs hl hpre hne
  exact ⟨hc1.withFile hl doc, hc1.not_dir_layout hl⟩

theorem descriptors_fold (ns : Str) (hns : IsToken ns) (l : List BinaryMetaData)
    (hl : ∀ b ∈ l, HasTokens b ∧ b.Version ≠ "versions".toList) (w : World)
    (hc : Conforms w.fs) :
    Conforms (l.foldl (fun w b => writeProviderVersion (pathJoin [pathJoin ["registry".toList,
        pathJoin ["registry".toList, "v1".toList, "providers".toList], ns], b.TypeName]) b w)
      w).fs ∧
    (l.foldl (fun w b => writeProviderVersion (pathJoin [pathJoin ["registry".toList,
        pathJoin ["registry".toList, "v1".toList, "providers".toList], ns], b.TypeName]) b w)
      w).log = w.log ++ l.map (descriptorWrite ns) ∧
    (∀ q, isDirAt w.fs q = true →
      isDirAt (l.foldl (fun w b => writeProviderVersion (pathJoin [pathJoin
        ["registry".toList, pathJoin ["registry".toList, "v1".toList, "providers".toList], ns],
        b.TypeName]) b w) w).fs q = true) ∧
    (∀ b ∈ l, isDirAt (l.foldl (fun w b => writeProviderVersion (pathJoin [pathJoin
        ["registry".toList, pathJoin ["registry".toList, "v1".toList, "providers".toList], ns],
        b.TypeName]) b w) w).fs (providerTokens ns ++ [b.TypeName]) = true) ∧
    (∀ q, (∀ b ∈ l, ¬ q <+: descriptorKey ns b) →
      (l.foldl (fun w b => writeProviderVersion (pathJoin [pathJoin ["registry".toList,
        pathJoin ["registry".toList, "v1".toList, "providers".toList], ns], b.TypeName]) b w)
      w).fs q = w.fs q) := by
  induction l generalizing w with
  | nil => simp [hc]
  | cons b l ih =>
    obtain ⟨hb, hv⟩ := hl b (List.mem_cons_self _ _)
    rw [List.foldl_cons, writeProviderVersion_step ns b w hns hb hv hc]
    have hlk : IsLayoutKey ((providerTokens ns ++
        [b.TypeName, b.Version, "download".toList, b.Os]) ++ [b.Arch]) := by
      rw [← descriptorKey_eq]; exact isLayoutKey_descriptor ns b hv
    obtain ⟨hc1, hnd⟩ := conforms_after_write w.fs hc _ b.Arch (.descriptor b.persisted) hlk
    rw [← descriptorKey_eq] at hc1 hnd
    obtain ⟨h1, h2, h3, h4, h5⟩ := ih (fun x hx => hl x (List.mem_cons_of_mem _ hx))
      { fs := (w.fs.withDirs
            (providerTokens ns ++ [b.TypeName, b.Version, "download".toList, b.Os])).withFile
          (descriptorKey ns b) (.descriptor b.persisted),
        log := w.log ++ [descriptorWrite ns b] } hc1
    have hmono : ∀ q, isDirAt w.fs q = true →
        isDirAt ((w.fs.withDirs
            (providerTokens ns ++ [b.TypeName, b.Version, "download".toList, b.Os])).withFile
          (descriptorKey ns b) (.descriptor b.persisted)) q = true := fun q hq =>
      isDirAt_withFile_mono _ _ hnd (isDirAt_withDirs_mono _ _ hq)
    refine ⟨h1, ?_, ?_, ?_, ?_⟩
    · rw [h2]; simp
    · intro q hq
      exact h3 q (hmono q hq)
    · intro x hx
      rcases List.mem_cons.1 hx with rfl | hx
      · apply h3
        apply isDirAt_withFile_mono _ _ hnd
        apply isDirAt_withDirs_of_prefix
        exact ⟨[x.Version, "download".toList, x.Os], by simp⟩
      · exact h4 x hx
    · intro q hq
      rw [h5 q (fun x hx => hq x (List.mem_cons_of_mem _ hx))]
      have hqb := hq b (List.mem_cons_self _ _)
      apply withFile_withDirs_other
      · rintro rfl
        exact hqb (List.prefix_refl _)
      · intro hpre
        apply hqb
        rw [descriptorKey_eq]
        exact hpre.trans (List.prefix_append _ _)

theorem readVersions_versionsPath (fs : FileSystem) (ns t : Str) (hns : IsToken ns)
    (ht : IsToken t) :
    readVersions fs (versionsPath ns t) =
      match fs (versionsKey ns t) with
      | some (.file (.versions v)) => v
      | _ => ProviderVersions.zero := by
  have hk : pathKey (versionsPath ns t) = versionsKey ns t :=
    pathKey_joinSlash _ (isTokenList_versions ns t hns ht)
  unfold readVersions
  rw [hk]

theorem readVersions_congr (fs1 fs2 : FileSystem) (ns t : Str) (hns : IsToken ns)
    (ht : IsToken t) (h : fs1 (versionsKey ns t) = fs2 (versionsKey ns t)) :
    readVersions fs1 (versionsPath ns t) = readVersions fs2 (versionsPath ns t) := by
  rw [readVersions_versionsPath fs1 ns t hns ht, readVersions_versionsPath fs2 ns t hns ht, h]

theorem readVersions_eq_file (fs : FileSystem) (ns t : Str) (hns : IsToken ns)
    (ht : IsToken t) (pv : ProviderVersions) (h : readVersions fs (versionsPath ns t) = pv)
    (hnz : pv ≠ ProviderVersions.zero) :
    fs (versionsKey ns t) = some (.file (.versions pv)) := by
  rw [readVersions_versionsPath fs ns t hns ht] at h
  split at h
  · next v hv => rw [hv, h]
  · exact absurd h.symm hnz

theorem writeProviderVersions_facts (ns t : Str) (pv : ProviderVersions) (w : World)
    (hns : IsToken ns) (ht : IsToken t) (hc : Conforms w.fs)
    (hdir : isDirAt w.fs (providerTokens ns ++ [t]) = true)
    (hnz : pv ≠ ProviderVersions.zero) :
    Conforms (writeProviderVersions (pathJoin [pathJoin ["registry".toList,
      pathJoin ["registry".toList, "v1".toList, "providers".toList], ns], t]) pv w).fs ∧
    (∀ q, q ≠ versionsKey ns t →
      (writeProviderVersions (pathJoin [pathJoin ["registry".toList,
        pathJoin ["registry".toList, "v1".toList, "providers".toList], ns], t]) pv w).fs q
        = w.fs q) ∧
    (writeProviderVersions (pathJoin [pathJoin ["registry".toList,
      pathJoin ["registry".toList, "v1".toList, "providers".toList], ns], t]) pv w).fs
      (versionsKey ns t) = some (.file (.versions
        (if readVersions w.fs (versionsPath ns t) = pv then pv
         else (readVersions w.fs (versionsPath ns t)).Merge pv))) ∧
    (∃ extra, (writeProviderVersions (pathJoin [pathJoin ["registry".toList,
        pathJoin ["registry".toList, "v1".toList, "providers".toList], ns], t]) pv w).log
        = w.log ++ extra ∧
      ∀ x ∈ extra, (∃ v, x = Write.mk (versionsPath ns t) (.versions v)) ∧
        readVersions w.fs (versionsPath ns t) ≠ pv) := by
  rw [writeProviderVersions_step ns t pv w hns ht hc hdir]
  by_cases heq : readVersions w.fs (versionsPath ns t) = pv
  · simp only [if_pos heq]
    refine ⟨hc, ?_, ?_, ⟨[], by simp, by simp⟩⟩
    · intro q _; trivial
    · exact readVersions_eq_file w.fs ns t hns ht pv heq hnz
  · simp only [if_neg heq]
    refine ⟨hc.withFile (isLayoutKey_versions ns t) _, ?_, ?_, ⟨[_], rfl, ?_⟩⟩
    · intro q hq
      simp [FileSystem.withFile, hq]
    · simp [FileSystem.withFile]
    · intro x hx
      rw [List.mem_singleton.1 hx]
      exact ⟨⟨_, rfl⟩, heq⟩

theorem isDirAt_congr (fs1 fs2 : FileSystem) (q : List Str) (h : fs1 q = fs2 q) :
    isDirAt fs1 q = isDirAt fs2 q := by
  unfold isDirAt; rw [h]

theorem typeDir_ne_versionsKey (ns t u : Str) : providerTokens ns ++ [t] ≠ versionsKey ns u := by
  intro h
  have hl := congrArg List.length h
  simp [versionsKey, providerTokens] at hl

theorem versions_fold (ns : Str) (hns : IsToken ns) (ps : ProviderMap)
    (hps : ∀ kv ∈ ps, IsToken kv.1) (hnd : (ps.map Prod.fst).Nodup)
    (hnz : ∀ kv ∈ ps, kv.2 ≠ ProviderVersions.zero) (w : World) (hc : Conforms w.fs)
    (hdir : ∀ kv ∈ ps, isDirAt w.fs (providerTokens ns ++ [kv.1]) = true) :
    Conforms (ps.foldl (fun w kv => writeProviderVersions (pathJoin [pathJoin
        ["registry".toList, pathJoin ["registry".toList, "v1".toList, "providers".toList], ns],
        kv.1]) kv.2 w) w).fs ∧
    (∃ extra, (ps.foldl (fun w kv => writeProviderVersions (pathJoin [pathJoin
        ["registry".toList, pathJoin ["registry".toList, "v1".toList, "providers".toList], ns],
        kv.1]) kv.2 w) w).log = w.log ++ extra ∧
      ∀ x ∈ extra, ∃ kv ∈ ps, (∃ v, x = Write.mk (versionsPath ns kv.1) (.versions v)) ∧
        readVersions w.fs (versionsPath ns kv.1) ≠ kv.2) ∧
    (∀ q, (∀ kv ∈ ps, q ≠ versionsKey ns kv.1) →
      (ps.foldl (fun w kv => writeProviderVersions (pathJoin [pathJoin
        ["registry".toList, pathJoin ["registry".toList, "v1".toList, "providers".toList], ns],
        kv.1]) kv.2 w) w).fs q = w.fs q) ∧
    (∀ kv ∈ ps, (ps.foldl (fun w kv => writeProviderVersions (pathJoin [pathJoin
        ["registry".toList, pathJoin ["registry".toList, "v1".toList, "providers".toList], ns],
        kv.1]) kv.2 w) w).fs (versionsKey ns kv.1) = some (.file (.versions
          (if readVersions w.fs (versionsPath ns kv.1) = kv.2 then kv.2
           else (readVersions w.fs (versionsPath ns kv.1)).Merge kv.2)))) := by
  induction ps generalizing w with
  | nil => exact ⟨hc, ⟨[], by simp, by simp⟩, fun _ _ => rfl, by simp⟩
  | cons kv ps ih =>
    simp only [List.map_cons, List.nodup_cons] at hnd
    have hkt : IsToken kv.1 := hps kv (List.mem_cons_self _ _)
    obtain ⟨hc1, hfr1, hat1, ⟨extra1, hlog1, hex1⟩⟩ :=
      writeProviderVersions_facts ns kv.1 kv.2 w hns hkt hc
        (hdir kv (List.mem_cons_self _ _)) (hnz kv (List.mem_cons_self _ _))
    have hne : ∀ kv1 ∈ ps, versionsKey ns kv1.1 ≠ versionsKey ns kv.1 := by
      intro kv1 hkv1 h
      have := versionsKey_injective ns _ _ h
      exact hnd.1 (this ▸ List.mem_map_of_mem Prod.fst hkv1)
    have hdir1 : ∀ kv1 ∈ ps, isDirAt (writeProviderVersions (pathJoin [pathJoin
        ["registry".toList, pathJoin ["registry".toList, "v1".toList, "providers".toList], ns],
        kv.1]) kv.2 w).fs (providerTokens ns ++ [kv1.1]) = true := by
      intro kv1 hkv1
      rw [isDirAt_congr _ w.fs _ (hfr1 _ (typeDir_ne_versionsKey ns kv1.1 kv.1))]
      exact hdir kv1 (List.mem_cons_of_mem _ hkv1)
    obtain ⟨h1, ⟨extra, h2, h2x⟩, h3, h4⟩ := ih (fun x hx => hps x (List.mem_cons_of_mem _ hx))
      hnd.2 (fun x hx => hnz x (List.mem_cons_of_mem _ hx)) _ hc1 hdir1
    rw [List.foldl_cons]
    refine ⟨h1, ⟨extra1 ++ extra, by rw [h2, hlog1, List.append_assoc], ?_⟩, ?_, ?_⟩
    · intro x hx
      rcases List.mem_append.1 hx with hx | hx
      · exact ⟨kv, List.mem_cons_self _ _, hex1 x hx⟩
      · obtain ⟨kv1, hkv1, hv, hr⟩ := h2x x hx
        refine ⟨kv1, List.mem_cons_of_mem _ hkv1, hv, ?_⟩
        rwa [readVersions_congr _ w.fs ns kv1.1 hns
          (hps kv1 (List.mem_cons_of_mem _ hkv1)) (hfr1 _ (hne kv1 hkv1))] at hr
    · intro q hq
      rw [h3 q (fun x hx => hq x (List.mem_cons_of_mem _ hx)),
        hfr1 q (hq kv (List.mem_cons_self _ _))]
    · intro kv1 hkv1
      rcases List.mem_cons.1 hkv1 with rfl | hkv1
      · rw [h3 _ (fun x hx => (hne x hx).symm), hat1]
      · rw [h4 kv1 hkv1, readVersions_congr _ w.fs ns kv1.1 hns
          (hps kv1 (List.mem_cons_of_mem _ hkv1)) (hfr1 _ (hne kv1 hkv1))]

theorem ProviderVersions.Add_ne_zero (p : ProviderVersions) (m : BinaryMetaData) :
    p.Add m ≠ ProviderVersions.zero := by
  intro h
  have hv : (p.Add m).Versions = [] := by rw [h]; rfl
  unfold ProviderVersions.Add at hv
  split at hv
  · next hhas =>
    have hne : p.Versions ≠ [] := by
      intro he
      simp [ProviderVersions.has, he] at hhas
    simp only [List.map_eq_nil_iff] at hv
    exact hne hv
  · simp at hv

theorem extract_fold_ne_zero (l : List BinaryMetaData) (r : ProviderMap)
    (hr : ∀ kv ∈ r, kv.2 ≠ ProviderVersions.zero) :
    ∀ kv ∈ l.foldl extractStep r, kv.2 ≠ ProviderVersions.zero := by
  induction l generalizing r with
  | nil => exact hr
  | cons m l ih =>
    rw [List.foldl_cons]
    apply ih
    intro kv hkv
    unfold extractStep at hkv
    split at hkv
    · rcases List.mem_append.1 hkv with h | h
      · exact hr kv h
      · rw [List.mem_singleton.1 h]
        exact ProviderVersions.Add_ne_zero ProviderVersions.zero m
    · obtain ⟨kv0, hkv0, rfl⟩ := List.mem_map.1 hkv
      split
      · exact ProviderVersions.Add_ne_zero kv0.2 m
      · exact hr kv0 hkv0

theorem ExtractVersions_ne_zero (l : List BinaryMetaData) :
    ∀ kv ∈ ExtractVersions l, kv.2 ≠ ProviderVersions.zero :=
  extract_fold_ne_zero l [] (by simp)

theorem ProviderMap.mem_of_get {r : ProviderMap} {k : Str} {v : ProviderVersions}
    (h : r.get k = some v) : (k, v) ∈ r := by
  induction r with
  | nil => simp [ProviderMap.get] at h
  | cons kv r ih =>
    obtain ⟨k1, v1⟩ := kv
    by_cases hk : k1 = k
    · simp only [ProviderMap.get, if_pos hk, Option.some.injEq] at h
      rw [hk, h]; exact List.mem_cons_self _ _
    · simp only [ProviderMap.get, if_neg hk] at h
      exact List.mem_cons_of_mem _ (ih h)

/-! ### A run of the pipeline -/

theorem lookup_eq_none_of_not_mem (l : List (Str × Str)) (k : Str)
    (h : k ∉ l.map Prod.fst) : l.lookup k = none := by
  induction l with
  | nil => rfl
  | cons kv l ih =>
    obtain ⟨a, b⟩ := kv
    simp only [List.map_cons, List.mem_cons, not_or] at h
    have hne : (k == a) = false := by simpa using h.1
    simp only [List.lookup, hne]
    exact ih h.2

theorem mapDeepEqual_iff (a b : List (Str × Str)) :
    mapDeepEqual a b = true ↔ ∀ k, a.lookup k = b.lookup k := by
  unfold mapDeepEqual
  rw [List.all_eq_true]
  constructor
  · intro h k
    by_cases hk : k ∈ a.map Prod.fst ++ b.map Prod.fst
    · simpa using h k hk
    · rw [List.mem_append, not_or] at hk
      rw [lookup_eq_none_of_not_mem a k hk.1, lookup_eq_none_of_not_mem b k hk.2]
  · intro h k _
    simpa using h k

theorem readDiscovery_eq_file (fs : FileSystem)
    (h : mapDeepEqual expectedDiscovery (readDiscovery fs discoveryPath) = true) :
    fs discoveryKey = some (.file (.discovery (readDiscovery fs discoveryPath))) := by
  have hk : pathKey discoveryPath = discoveryKey := by decide
  have hne : readDiscovery fs discoveryPath ≠ [] := by
    intro he
    rw [he] at h
    exact absurd h (by decide)
  unfold readDiscovery at hne ⊢
  rw [hk] at hne ⊢
  split at hne
  · next c hc => rw [hc]
  · exact absurd rfl hne

theorem WriteAPIDocuments_of_assert (ns : Str) (binaries : List BinaryMetaData)
    (w w0 : World)
    (h : assertDiscoveryDocument "registry".toList
      (pathJoin ["registry".toList, "v1".toList, "providers".toList]) w = (none, w0)) :
    WriteAPIDocuments ns binaries w = (none,
      (ExtractVersions binaries).foldl (fun w kv => writeProviderVersions (pathJoin [pathJoin
        ["registry".toList, pathJoin ["registry".toList, "v1".toList, "providers".toList], ns],
        kv.1]) kv.2 w)
      (binaries.foldl (fun w b => writeProviderVersion (pathJoin [pathJoin ["registry".toList,
        pathJoin ["registry".toList, "v1".toList, "providers".toList], ns], b.TypeName]) b w)
      w0)) := by
  unfold WriteAPIDocuments
  simp only [h]

theorem assertDiscoveryDocument_facts (w : World) (hc : Conforms w.fs) :
    ∃ w0 pre, assertDiscoveryDocument "registry".toList
        (pathJoin ["registry".toList, "v1".toList, "providers".toList]) w = (none, w0) ∧
      Conforms w0.fs ∧ w0.log = w.log ++ pre ∧
      ((pre = [] ∧ mapDeepEqual expectedDiscovery (readDiscovery w.fs discoveryPath) = true) ∨
        (pre = [Write.mk discoveryPath (.discovery expectedDiscovery)] ∧
          mapDeepEqual expectedDiscovery (readDiscovery w.fs discoveryPath) = false)) ∧
      (∃ c, w0.fs discoveryKey = some (.file (.discovery c)) ∧
        mapDeepEqual expectedDiscovery c = true) ∧
      (∀ q, ¬ q <+: discoveryKey → w0.fs q = w.fs q) ∧
      (∀ q, isDirAt w.fs q = true → isDirAt w0.fs q = true) := by
  rw [assertDiscoveryDocument_step w hc]
  by_cases h : mapDeepEqual expectedDiscovery (readDiscovery w.fs discoveryPath) = true
  · rw [if_pos h]
    exact ⟨w, [], rfl, hc, by simp, Or.inl ⟨rfl, h⟩,
      ⟨_, readDiscovery_eq_file w.fs h, h⟩, fun _ _ => rfl, fun _ hq => hq⟩
  · rw [if_neg h]
    have hl : IsLayoutKey (["registry".toList, ".well-known".toList] ++
        ["terraform.json".toList]) := isLayoutKey_discovery
    obtain ⟨hc1, hnd⟩ := conforms_after_write w.fs hc _ "terraform.json".toList
      (.discovery expectedDiscovery) hl
    refine ⟨_, [Write.mk discoveryPath (.discovery expectedDiscovery)], rfl, hc1, rfl,
      Or.inr ⟨rfl, by simpa using h⟩, ⟨expectedDiscovery, ?_, by decide⟩, ?_, ?_⟩
    · simp [FileSystem.withFile]
    · intro q hq
      apply withFile_withDirs_other
      · rintro rfl
        exact hq (List.prefix_refl _)
      · intro hpre
        exact hq (hpre.trans ⟨["terraform.json".toList], rfl⟩)
    · intro q hq
      exact isDirAt_withFile_mono _ _ hnd (isDirAt_withDirs_mono _ _ hq)

theorem versionsKey_not_prefix_discoveryKey (ns t : Str) :
    ¬ versionsKey ns t <+: discoveryKey := by
  intro h
  have := h.length_le
  simp [versionsKey, providerTokens, discoveryKey] at this

theorem WriteAPIDocuments_facts (ns : Str) (binaries : List BinaryMetaData) (w : World)
    (hns : IsToken ns)
    (hall : ∀ b ∈ binaries, HasTokens b ∧ b.Version ≠ "versions".toList)
    (hc : Conforms w.fs) :
    ∃ w1, WriteAPIDocuments ns binaries w = (none, w1) ∧ Conforms w1.fs ∧
      (∃ pre extra, w1.log = w.log ++ pre ++ binaries.map (descriptorWrite ns) ++ extra ∧
        ((pre = [] ∧
            mapDeepEqual expectedDiscovery (readDiscovery w.fs discoveryPath) = true) ∨
          (pre = [Write.mk discoveryPath (.discovery expectedDiscovery)] ∧
            mapDeepEqual expectedDiscovery (readDiscovery w.fs discoveryPath) = false)) ∧
        ∀ x ∈ extra, ∃ kv ∈ ExtractVersions binaries,
          (∃ v, x = Write.mk (versionsPath ns kv.1) (.versions v)) ∧
          readVersions w.fs (versionsPath ns kv.1) ≠ kv.2) ∧
      (∃ c, w1.fs discoveryKey = some (.file (.discovery c)) ∧
        mapDeepEqual expectedDiscovery c = true) ∧
      (∀ kv ∈ ExtractVersions binaries, w1.fs (versionsKey ns kv.1) =
        some (.file (.versions
          (if readVersions w.fs (versionsPath ns kv.1) = kv.2 then kv.2
           else (readVersions w.fs (versionsPath ns kv.1)).Merge kv.2)))) := by
  have hkeys : ∀ kv ∈ ExtractVersions binaries, IsToken kv.1 :=
    ExtractVersions_tokens binaries (fun b hb => (hall b hb).1)
  have hnd := (ExtractVersions_keys binaries).1
  obtain ⟨w0, pre, hassert, hc0, hlog0, hpre, ⟨c, hdisc0, hceq⟩, hfr0, -⟩ :=
    assertDiscoveryDocument_facts w hc
  obtain ⟨hcd, hlogd, -, hdird, hfrd⟩ := descriptors_fold ns hns binaries hall w0 hc0
  have hdirs : ∀ kv ∈ ExtractVersions binaries,
      isDirAt (binaries.foldl (fun w b => writeProviderVersion (pathJoin [pathJoin
        ["registry".toList, pathJoin ["registry".toList, "v1".toList, "providers".toList], ns],
        b.TypeName]) b w) w0).fs (providerTokens ns ++ [kv.1]) = true := by
    intro kv hkv
    obtain ⟨b, hb, hbk⟩ := ((ExtractVersions_keys binaries).2 kv.1).1
      (List.mem_map_of_mem Prod.fst hkv)
    rw [← hbk]
    exact hdird b hb
  obtain ⟨hcv, ⟨extra, hlogv, hex⟩, hfrv, hatv⟩ := versions_fold ns hns
    (ExtractVersions binaries) hkeys hnd (ExtractVersions_ne_zero binaries) _ hcd hdirs
  -- the file of a version list is untouched by the first two steps
  have hv0 : ∀ kv ∈ ExtractVersions binaries,
      readVersions (binaries.foldl (fun w b => writeProviderVersion (pathJoin [pathJoin
        ["registry".toList, pathJoin ["registry".toList, "v1".toList, "providers".toList], ns],
        b.TypeName]) b w) w0).fs (versionsPath ns kv.1) =
      readVersions w.fs (versionsPath ns kv.1) := by
    intro kv hkv
    apply readVersions_congr _ _ ns kv.1 hns (hkeys kv hkv)
    rw [hfrd _ (fun b hb => versionsKey_not_prefix_descriptorKey ns kv.1 b (hall b hb).2),
      hfr0 _ (versionsKey_not_prefix_discoveryKey ns kv.1)]
  refine ⟨_, WriteAPIDocuments_of_assert ns binaries w w0 hassert, hcv,
    ⟨pre, extra, by rw [hlogv, hlogd, hlog0], hpre, ?_⟩, ⟨c, ?_, hceq⟩, ?_⟩
  · intro x hx
    obtain ⟨kv, hkv, hv, hr⟩ := hex x hx
    refine ⟨kv, hkv, hv, ?_⟩
    rwa [hv0 kv hkv] at hr
  · rw [hfrv _ (fun kv _ => discoveryKey_ne_versionsKey ns kv.1),
      hfrd _ (fun b hb => discoveryKey_not_prefix_descriptorKey ns b (hall b hb).2)]
    exact hdisc0
  · intro kv hkv
    rw [hatv kv hkv, hv0 kv hkv]

theorem conforms_emptyWorld : Conforms emptyWorld.fs :=
  ⟨fun _ _ h => absurd h (by simp [emptyWorld]), fun _ h => absurd h (by simp [emptyWorld])⟩

/-- C8, as stated, fails.  With `registry` as output root (the directory that holds
`.well-known/terraform.json`), namespace `acme` and the record of foo 1.0.0 linux amd64
on the empty tree, nothing is written at `v1/providers/acme/foo/1.0.0/download/linux/amd64`
under the output root: the provider tree lies one `registry` directory deeper.  For a
record whose version is the word `versions` no version list is written at all, its path
being a directory of the descriptor; and where `registry` is a regular file the run ends
in `log.Fatalf` with nothing written. -/
theorem WriteAPIDocuments_layout_counterexample :
    (¬ ∀ (ns : Str) (b : BinaryMetaData) (w : World), IsToken ns → HasTokens b →
      ∃ x ∈ (WriteAPIDocuments ns [b] w).2.log,
        x.path = joinSlash ["registry".toList, "v1".toList, "providers".toList, ns,
          b.TypeName, b.Version, "download".toList, b.Os, b.Arch]) ∧
    (HasTokens exampleVersionsRecord ∧
      (WriteAPIDocuments "acme".toList [exampleVersionsRecord] emptyWorld).2.log.map
        Write.path = ["registry/.well-known/terraform.json".toList,
          "registry/registry/v1/providers/acme/foo/versions/download/linux/amd64".toList] ∧
      (WriteAPIDocuments "acme".toList [exampleVersionsRecord] emptyWorld).2.fs
        ["registry".toList, "registry".toList, "v1".toList, "providers".toList,
          "acme".toList, "foo".toList, "versions".toList] = some .dir) ∧
    ((WriteAPIDocuments "acme".toList [exampleRecord ["5.0".toList] "abc123".toList]
        blockedWorld).1 = some .cannotCreateWellKnown ∧
      (WriteAPIDocuments "acme".toList [exampleRecord ["5.0".toList] "abc123".toList]
        blockedWorld).2.log = []) := by
  refine ⟨?_, by decide, by decide⟩
  intro h
  have h1 := h "acme".toList (exampleRecord ["5.0".toList] "abc123".toList) emptyWorld
    (by decide) (by decide)
  revert h1
  decide

/-- C8 (amended): for a namespace `n` and records whose type `t`, version `v`, OS `o` and arch
`a` are plain path elements, `v` not being the word `versions`, on an output tree that
holds nothing but this layout (the empty tree is one), `WriteAPIDocuments` ends without
failure, writes the per-platform descriptor of each record to
`registry/registry/v1/providers/n/t/v/download/o/a`, leaves a regular file with the
aggregated version list of its type at `registry/registry/v1/providers/n/t/versions` (the
persisted list when it equals the fresh aggregate, else the merge of the two), and leaves at
`registry/.well-known/terraform.json` a discovery document with the one entry
`providers.v1` = `/registry/v1/providers/`: relative to the output root `registry` the
provider tree starts at `registry/v1/providers`. -/
theorem WriteAPIDocuments_layout (ns : Str) (binaries : List BinaryMetaData) (w : World)
    (b : BinaryMetaData) (hns : IsToken ns)
    (hall : ∀ x ∈ binaries, HasTokens x ∧ x.Version ≠ "versions".toList)
    (hconf : Conforms w.fs) (hb : b ∈ binaries) :
    (WriteAPIDocuments ns binaries w).1 = none ∧
    Write.mk (joinSlash ["registry".toList, "registry".toList, "v1".toList,
        "providers".toList, ns, b.TypeName, b.Version, "download".toList, b.Os, b.Arch])
      (.descriptor b.persisted) ∈ (WriteAPIDocuments ns binaries w).2.log ∧
    (∃ pv, (ExtractVersions binaries).get b.TypeName = some pv ∧
      (WriteAPIDocuments ns binaries w).2.fs
        ["registry".toList, "registry".toList, "v1".toList, "providers".toList, ns,
          b.TypeName, "versions".toList] =
        some (.file (.versions
          (if readVersions w.fs (joinSlash ["registry".toList, "registry".toList,
              "v1".toList, "providers".toList, ns, b.TypeName, "versions".toList]) = pv
           then pv
           else (readVersions w.fs (joinSlash ["registry".toList, "registry".toList,
              "v1".toList, "providers".toList, ns, b.TypeName, "versions".toList])).Merge
                pv)))) ∧
    (∃ c, (WriteAPIDocuments ns binaries w).2.fs
        ["registry".toList, ".well-known".toList, "terraform.json".toList] =
        some (.file (.discovery c)) ∧
      ∀ key, c.lookup key =
        [("providers.v1".toList, "/registry/v1/providers/".toList)].lookup key) := by
  obtain ⟨w1, hrun, -, ⟨pre, extra, hlog, -, -⟩, ⟨c, hdisc, hceq⟩, hvers⟩ :=
    WriteAPIDocuments_facts ns binaries w hns hall hconf
  rw [hrun]
  refine ⟨rfl, ?_, ?_, ⟨c, hdisc, ?_⟩⟩
  · show descriptorWrite ns b ∈ w1.log
    rw [hlog]
    apply List.mem_append_left
    apply List.mem_append_right
    exact List.mem_map_of_mem (descriptorWrite ns) hb
  · obtain ⟨pv, hpv⟩ := ExtractVersions_get_isSome binaries b hb
    exact ⟨pv, hpv, hvers (b.TypeName, pv) (ProviderMap.mem_of_get hpv)⟩
  · intro key
    exact ((mapDeepEqual_iff _ _).1 hceq key).symm

theorem WriteAPIDocuments_layout_witness :
    IsToken "acme".toList ∧ Conforms emptyWorld.fs ∧
    (WriteAPIDocuments "acme".toList [exampleRecord ["5.0".toList] "abc123".toList]
      emptyWorld).1 = none ∧
    Write.mk "registry/registry/v1/providers/acme/foo/1.0.0/download/linux/amd64".toList
        (.descriptor (exampleRecord ["5.0".toList] "abc123".toList).persisted)
      ∈ (WriteAPIDocuments "acme".toList [exampleRecord ["5.0".toList] "abc123".toList]
          emptyWorld).2.log :=
  ⟨by decide, conforms_emptyWorld,
   (WriteAPIDocuments_layout "acme".toList [exampleRecord ["5.0".toList] "abc123".toList]
    emptyWorld (exampleRecord ["5.0".toList] "abc123".toList) (by decide) (by decide)
    conforms_emptyWorld (by decide)).1,
   (WriteAPIDocuments_layout "acme".toList [exampleRecord ["5.0".toList] "abc123".toList]
    emptyWorld (exampleRecord ["5.0".toList] "abc123".toList) (by decide) (by decide)
    conforms_emptyWorld (by decide)).2.1⟩

/-- C5, the code at the failing inputs.  On the empty tree, with namespace `acme` and the
single record of `terraform-provider-foo_1.0.0_linux_amd64.zip`, the second of two runs
writes the per-platform descriptor again.  On a tree in which an earlier run has recorded
foo 0.9.0, the second of two runs for foo 1.0.0 writes the descriptor and the version list
again, although the first has already merged 1.0.0 into the list. -/
theorem WriteAPIDocuments_second_run_writes :
    (WriteAPIDocuments "acme".toList [exampleRecord ["5.0".toList] "abc123".toList]
      { fs := (WriteAPIDocuments "acme".toList
          [exampleRecord ["5.0".toList] "abc123".toList] emptyWorld).2.fs,
        log := [] }).2.log =
      [descriptorWrite "acme".toList (exampleRecord ["5.0".toList] "abc123".toList)] ∧
    (WriteAPIDocuments "acme".toList [exampleRecord ["5.0".toList] "abc123".toList]
      { fs := (WriteAPIDocuments "acme".toList
          [exampleRecord ["5.0".toList] "abc123".toList]
          { fs := (WriteAPIDocuments "acme".toList [exampleOlderRecord] emptyWorld).2.fs,
            log := [] }).2.fs,
        log := [] }).2.log.map Write.path =
      ["registry/registry/v1/providers/acme/foo/1.0.0/download/linux/amd64".toList,
       "registry/registry/v1/providers/acme/foo/versions".toList] := by
  constructor <;> decide

end TfRegistry
